import Mathlib

/-!
Verification of the aftertone serverless inventory API.

The development shallow-embeds the three source files (the inventory
handler, the upload handler and the shared `verifyAuth` helper) into Lean.
JavaScript values appearing in request bodies and in the stored JSON
document are modelled by the inductive type `JsVal`; objects are ordered
association lists of field name and value, which preserves both the open
schema and JS property-insertion order.  External collaborators are
modelled as capabilities: the outcome of `jose`'s `jwtVerify` and the
outcome of the blob-store read are parameters of the handler functions,
and a store write is reported as an output (the collection passed to
`store.set`) rather than performed.  An uncaught JavaScript exception is
modelled by `Except.error ()`.
-/

set_option autoImplicit false

namespace Aftertone

/-- Model of a JavaScript/JSON value as it occurs in this API: strings,
numbers (the API only compares numbers for truthiness and type, so `Int`
suffices), booleans, `null`, arrays and ordered objects. -/
inductive JsVal where
  | str (s : String)
  | num (n : Int)
  | bool (b : Bool)
  | null
  | arr (xs : List JsVal)
  | obj (fs : List (String × JsVal))
  deriving Repr

mutual

/-- Decidable equality on `JsVal` (written out by hand because the
nested-inductive deriving handler is unavailable). -/
def JsVal.deq : (a b : JsVal) → Decidable (a = b)
  | .str x, .str y =>
    if h : x = y then .isTrue (by rw [h])
    else .isFalse (by intro he; injection he; exact h ‹_›)
  | .num x, .num y =>
    if h : x = y then .isTrue (by rw [h])
    else .isFalse (by intro he; injection he; exact h ‹_›)
  | .bool x, .bool y =>
    if h : x = y then .isTrue (by rw [h])
    else .isFalse (by intro he; injection he; exact h ‹_›)
  | .null, .null => .isTrue rfl
  | .arr xs, .arr ys =>
    match JsVal.deqList xs ys with
    | .isTrue h => .isTrue (by rw [h])
    | .isFalse h => .isFalse (by intro he; injection he; exact h ‹_›)
  | .obj xs, .obj ys =>
    match JsVal.deqFields xs ys with
    | .isTrue h => .isTrue (by rw [h])
    | .isFalse h => .isFalse (by intro he; injection he; exact h ‹_›)
  | .str _, .num _ => .isFalse (fun h => nomatch h)
  | .str _, .bool _ => .isFalse (fun h => nomatch h)
  | .str _, .null => .isFalse (fun h => nomatch h)
  | .str _, .arr _ => .isFalse (fun h => nomatch h)
  | .str _, .obj _ => .isFalse (fun h => nomatch h)
  | .num _, .str _ => .isFalse (fun h => nomatch h)
  | .num _, .bool _ => .isFalse (fun h => nomatch h)
  | .num _, .null => .isFalse (fun h => nomatch h)
  | .num _, .arr _ => .isFalse (fun h => nomatch h)
  | .num _, .obj _ => .isFalse (fun h => nomatch h)
  | .bool _, .str _ => .isFalse (fun h => nomatch h)
  | .bool _, .num _ => .isFalse (fun h => nomatch h)
  | .bool _, .null => .isFalse (fun h => nomatch h)
  | .bool _, .arr _ => .isFalse (fun h => nomatch h)
  | .bool _, .obj _ => .isFalse (fun h => nomatch h)
  | .null, .str _ => .isFalse (fun h => nomatch h)
  | .null, .num _ => .isFalse (fun h => nomatch h)
  | .null, .bool _ => .isFalse (fun h => nomatch h)
  | .null, .arr _ => .isFalse (fun h => nomatch h)
  | .null, .obj _ => .isFalse (fun h => nomatch h)
  | .arr _, .str _ => .isFalse (fun h => nomatch h)
  | .arr _, .num _ => .isFalse (fun h => nomatch h)
  | .arr _, .bool _ => .isFalse (fun h => nomatch h)
  | .arr _, .null => .isFalse (fun h => nomatch h)
  | .arr _, .obj _ => .isFalse (fun h => nomatch h)
  | .obj _, .str _ => .isFalse (fun h => nomatch h)
  | .obj _, .num _ => .isFalse (fun h => nomatch h)
  | .obj _, .bool _ => .isFalse (fun h => nomatch h)
  | .obj _, .null => .isFalse (fun h => nomatch h)
  | .obj _, .arr _ => .isFalse (fun h => nomatch h)

/-- Decidable equality on lists of `JsVal`. -/
def JsVal.deqList : (as bs : List JsVal) → Decidable (as = bs)
  | [], [] => .isTrue rfl
  | [], _ :: _ => .isFalse (fun h => nomatch h)
  | _ :: _, [] => .isFalse (fun h => nomatch h)
  | a :: as, b :: bs =>
    match JsVal.deq a b, JsVal.deqList as bs with
    | .isTrue h₁, .isTrue h₂ => .isTrue (by rw [h₁, h₂])
    | .isFalse h₁, _ => .isFalse (by intro he; injection he; exact h₁ ‹_›)
    | _, .isFalse h₂ => .isFalse (by intro he; injection he; exact h₂ ‹_›)

/-- Decidable equality on object bodies. -/
def JsVal.deqFields : (as bs : List (String × JsVal)) → Decidable (as = bs)
  | [], [] => .isTrue rfl
  | [], _ :: _ => .isFalse (fun h => nomatch h)
  | _ :: _, [] => .isFalse (fun h => nomatch h)
  | (k₁, v₁) :: as, (k₂, v₂) :: bs =>
    if hk : k₁ = k₂ then
      match JsVal.deq v₁ v₂, JsVal.deqFields as bs with
      | .isTrue h₁, .isTrue h₂ => .isTrue (by rw [hk, h₁, h₂])
      | .isFalse h₁, _ => .isFalse (by
          intro he
          injection he with hp ht
          injection hp with hk₂ hv
          exact h₁ hv)
      | _, .isFalse h₂ => .isFalse (by intro he; injection he; exact h₂ ‹_›)
    else .isFalse (by
      intro he
      injection he with hp ht
      injection hp with hk₂ hv
      exact hk hk₂)

end

instance : DecidableEq JsVal := JsVal.deq

/-- A JavaScript object body: ordered field list. -/
abbrev Obj := List (String × JsVal)

/-- JavaScript truthiness of a value. -/
def truthy : JsVal → Bool
  | .str s => decide (s ≠ "")
  | .num n => decide (n ≠ 0)
  | .bool b => b
  | .null => false
  | .arr _ => true
  | .obj _ => true

/-- Truthiness of a possibly-`undefined` value (`none` = `undefined`). -/
def truthyOpt : Option JsVal → Bool
  | none => false
  | some v => truthy v

/-- Generic ordered association list lookup: first match wins. -/
def alGet {κ : Type} [DecidableEq κ] (m : List (κ × JsVal)) (k : κ) : Option JsVal :=
  match m with
  | [] => none
  | (k₁, v) :: rest => if k₁ = k then some v else alGet rest k

/-- Generic ordered association list update: replace the value at the
first occurrence of the key in place, else append — exactly the
behaviour shared by a JS object literal update and `Map.prototype.set`. -/
def alSet {κ : Type} [DecidableEq κ] (m : List (κ × JsVal)) (k : κ) (v : JsVal) :
    List (κ × JsVal) :=
  match m with
  | [] => [(k, v)]
  | (k₁, v₁) :: rest => if k₁ = k then (k₁, v) :: rest else (k₁, v₁) :: alSet rest k v

/-- The insertion-ordered key list. -/
def alKeys {κ : Type} (m : List (κ × JsVal)) : List κ := m.map Prod.fst

/-- First-match field lookup, `o[k]` on an object body (`none` =
`undefined`). -/
def getF (o : Obj) (k : String) : Option JsVal := alGet o k

/-- Property access `v.k` on an arbitrary value: throws a `TypeError` on
`null` (modelled by `Except.error ()`), yields `undefined` on other
primitives and on arrays (this API never reads numeric indices). -/
def getProp (v : JsVal) (k : String) : Except Unit (Option JsVal) :=
  match v with
  | .null => .error ()
  | .obj f => .ok (getF f k)
  | _ => .ok none

/-- Whether a value is a string. -/
def JsVal.isStr : JsVal → Bool
  | .str _ => true
  | _ => false

/-- Whether a value is a number. -/
def JsVal.isNum : JsVal → Bool
  | .num _ => true
  | _ => false

/-- Setting a field as the object literal `{...o, k: v}` does: replace the
value at the first occurrence of `k` in place, else append `(k, v)`. -/
def setField (o : Obj) (k : String) (v : JsVal) : Obj := alSet o k v

/-- The own enumerable fields contributed by `{...v}`.  For objects these
are the fields; for every other value that this handler can spread and
later observe, the contribution is empty.  (Spreading a string or an array
contributes index keys in JS, but such items necessarily fail the `make`
validation and their fields are never observed in any handler output, so
the embedding elides the index keys.) -/
def spreadFields : JsVal → Obj
  | .obj f => f
  | _ => []

/-- String conversion as performed by a template literal. -/
def jsToString : JsVal → String
  | .str s => s
  | .num n => toString n
  | .bool true => "true"
  | .bool false => "false"
  | .null => "null"
  | .obj _ => "[object Object]"
  | .arr xs => String.intercalate ","
      (xs.attach.map (fun p =>
        match p with
        | ⟨.null, _⟩ => ""
        | ⟨v, _⟩ => jsToString v))

/-- Template-literal conversion of a possibly-`undefined` value. -/
def jsToStringOpt : Option JsVal → String
  | none => "undefined"
  | some v => jsToString v

/-! ## `normalizeId` (src/unnamed/part_000, lines 17–23)

`str.toLowerCase().trim().replace(/[^a-z0-9]+/g,'-').replace(/^-+|-+$/g,'')`,
modelled character-list-wise.  `toLowerCase` is modelled on the ASCII
range (every character the later stages distinguish is ASCII). -/

/-- Matches the regex class `[a-z0-9]`. -/
def isAlnumL (c : Char) : Bool :=
  (97 ≤ c.toNat && c.toNat ≤ 122) || (48 ≤ c.toNat && c.toNat ≤ 57)

/-- ASCII upper-case letter. -/
def isJsUpper (c : Char) : Bool := 65 ≤ c.toNat && c.toNat ≤ 90

/-- `String.prototype.toLowerCase`, character-wise, on the ASCII range. -/
def jsLowerChar (c : Char) : Char :=
  if isJsUpper c then Char.ofNat (c.toNat + 32) else c

/-- The white-space class removed by `String.prototype.trim`. -/
def isJsWs (c : Char) : Bool :=
  c.toNat = 32 || (9 ≤ c.toNat && c.toNat ≤ 13) || c.toNat = 160 ||
  c.toNat = 0x1680 || (0x2000 ≤ c.toNat && c.toNat ≤ 0x200A) ||
  c.toNat = 0x2028 || c.toNat = 0x2029 || c.toNat = 0x202F ||
  c.toNat = 0x205F || c.toNat = 0x3000 || c.toNat = 0xFEFF

/-- `String.prototype.trim`. -/
def trimList (l : List Char) : List Char :=
  ((l.dropWhile isJsWs).reverse.dropWhile isJsWs).reverse

/-- One pass of `.replace(/[^a-z0-9]+/g, '-')`: the flag records whether
the scanner is inside a run of non-alphanumeric characters (whose first
character already emitted the hyphen). -/
def collapseAux : Bool → List Char → List Char
  | _, [] => []
  | prevNon, c :: cs =>
    if isAlnumL c then c :: collapseAux false cs
    else if prevNon then collapseAux true cs
    else '-' :: collapseAux true cs

/-- `.replace(/^-+|-+$/g, '')`: strip the leading and the trailing run of
hyphens. -/
def stripHyphens (l : List Char) : List Char :=
  ((l.dropWhile (fun c => c == '-')).reverse.dropWhile (fun c => c == '-')).reverse

/-- `normalizeId` from the source: lower-case, trim, collapse runs of
non-alphanumerics to a single hyphen, strip leading/trailing hyphens. -/
def normalizeId (s : String) : String :=
  ⟨stripHyphens (collapseAux false (trimList (s.data.map jsLowerChar)))⟩

example : normalizeId "Ford  Mustang!" = "ford-mustang" := by decide
example : normalizeId "ford-mustang" = "ford-mustang" := by decide
example : normalizeId "  --a__B--  " = "a-b" := by decide
example : normalizeId "" = "" := by decide
example : normalizeId "!!!" = "" := by decide

/-! ## The auth verifier (src/unnamed/part_000, lines 135–166)

`jose`'s `jwtVerify` is an external capability; its outcome for the
request's token is the parameter `jwt` (`Except.error ()` = the library
threw, `.ok payload` = signature/issuer/audience verification succeeded
with the given claim set).  The configured-ness of `AUTH0_DOMAIN` and
`AUTH0_AUDIENCE` is the parameter `cfg`. -/

/-- A typed failure thrown by `verifyAuth`: the `err.status` and
`err.message` fields the handlers read back. -/
structure AuthErr where
  status : Nat
  msg : String
  deriving DecidableEq, Repr

/-- An exception raised inside the `try` block of `verifyAuth`: either
something thrown by `jwtVerify`/the scope-string split, or the
explicitly-constructed 403 error. -/
inductive VerifyTryErr where
  | thrown
  | scopeErr (e : AuthErr)
  deriving DecidableEq, Repr

/-- `String.prototype.split(' ')` (split at each single space), written
as structural recursion over the character list. -/
def splitSpAux : List Char → List Char → List String
  | [], acc => [String.mk acc.reverse]
  | c :: cs, acc =>
    if c = ' ' then String.mk acc.reverse :: splitSpAux cs []
    else splitSpAux cs (c :: acc)

/-- `s.split(' ')`. -/
def jsSplitSpace (s : String) : List String := splitSpAux s.data []

/-- `(payload.scope || '').split(' ')`; calling `.split` on a truthy
non-string scope claim throws. -/
def scopesOf (payload : Obj) : Except Unit (List String) :=
  match getF payload "scope" with
  | some (.str s) => if s ≠ "" then .ok (jsSplitSpace s) else .ok (jsSplitSpace "")
  | some v => if truthy v then .error () else .ok (jsSplitSpace "")
  | none => .ok (jsSplitSpace "")

/-- The body of the `try` block in `verifyAuth`: token verification and
the scope check.  The missing-scope failure is constructed with status
403 here — inside the `try`. -/
def verifyAuthTry (jwt : Except Unit Obj) (scopeNeeded : String) : Except VerifyTryErr Obj :=
  match jwt with
  | .error _ => .error .thrown
  | .ok payload =>
    if scopeNeeded ≠ "" then
      match scopesOf payload with
      | .error _ => .error .thrown
      | .ok scopes =>
        if scopeNeeded ∈ scopes then .ok payload
        else .error (.scopeErr ⟨403, "Forbidden: missing scope"⟩)
    else .ok payload

/-- Whether the first list leads the second list character for
character. -/
def leadMatches : List Char → List Char → Bool
  | [], _ => true
  | _ :: _, [] => false
  | p :: ps, c :: cs => p == c && leadMatches ps cs

/-- `authHeader.toLowerCase().startsWith('bearer ')`. -/
def hdrIsBearer (h : String) : Bool :=
  leadMatches "bearer ".data (h.data.map jsLowerChar)

/-- `verifyAuth` from the source.  Note the `catch` clause: every
exception escaping the `try` body — including the 403 built for a missing
scope — is replaced by a fresh 401 `Unauthorized` error. -/
def verifyAuth (cfg : Bool) (hdr : Option String) (jwt : Except Unit Obj)
    (scopeNeeded : String) : Except AuthErr Obj :=
  if !cfg then .error ⟨500, "Auth not configured"⟩
  else
    match hdr with
    | none => .error ⟨401, "Unauthorized"⟩
    | some h =>
      if !(hdrIsBearer h) then .error ⟨401, "Unauthorized"⟩
      else
        match verifyAuthTry jwt scopeNeeded with
        | .ok payload => .ok payload
        | .error _ => .error ⟨401, "Unauthorized"⟩

/-! ## HTTP plumbing -/

/-- An HTTP response; the CORS headers attached by the source's `resp`
carry no claim-relevant information and are elided. -/
structure Response where
  statusCode : Nat
  body : JsVal
  deriving DecidableEq, Repr

/-- `resp` from the source (status code and JSON body). -/
def resp (statusCode : Nat) (body : JsVal) : Response := ⟨statusCode, body⟩

/-- An `{ error: msg }` response body. -/
def errBody (msg : String) : JsVal := .obj [("error", .str msg)]

/-- The outcome of `store.get(KEY, {type:'text'})` followed by
`JSON.parse`: the document may be absent (or empty text), the read or the
parse may throw, or a parsed value is produced. -/
inductive ReadOutcome where
  | absent
  | readFail
  | doc (v : JsVal)
  deriving DecidableEq, Repr

/-- Truthiness of `event.headers.authorization`. -/
def hdrTruthy : Option String → Bool
  | none => false
  | some s => decide (s ≠ "")

/-! ## `handleGet` (src/unnamed/part_000, lines 42–62) -/

/-- The `status` property of a stored element (`none` = `undefined`). -/
def statusFld (v : JsVal) : Option JsVal :=
  match v with
  | .obj f => getF f "status"
  | _ => none

/-- `list.filter((i) => i.status !== 'Draft')`; reading `.status` off a
`null` element throws (inside the surrounding `try`). -/
def filterDrafts : List JsVal → Except Unit (List JsVal)
  | [] => .ok []
  | v :: vs =>
    if v = .null then .error ()
    else
      match filterDrafts vs with
      | .error u => .error u
      | .ok rest =>
        if statusFld v = some (.str "Draft") then .ok rest else .ok (v :: rest)

/-- `Array.isArray(data) ? data : []`. -/
def listOf (v : JsVal) : List JsVal :=
  match v with
  | .arr l => l
  | _ => []

/-- The body of `handleGet` once the elevation decision has been made. -/
def handleGetCore (includeDrafts : Bool) (stored : ReadOutcome) : Response :=
  match stored with
  | .absent => resp 200 (.arr [])
  | .readFail => resp 500 (errBody "Failed to read inventory")
  | .doc v =>
    if includeDrafts then resp 200 (.arr (listOf v))
    else
      match filterDrafts (listOf v) with
      | .ok kept => resp 200 (.arr kept)
      | .error _ => resp 500 (errBody "Failed to read inventory")

/-- `handleGet` from the source: the view is elevated exactly when
`includeDrafts=1` was passed, the authorization header is truthy, and
`verifyAuth` for `inventory:read` succeeds; any verification failure is
swallowed and falls back to the public view. -/
def handleGet (cfg : Bool) (qsIncludeDrafts : Bool) (hdr : Option String)
    (jwt : Except Unit Obj) (stored : ReadOutcome) : Response :=
  handleGetCore
    (qsIncludeDrafts && hdrTruthy hdr && (verifyAuth cfg hdr jwt "inventory:read").isOk)
    stored

/-! ## `handlePost` (src/unnamed/part_000, lines 64–116) -/

/-- Whether an optional value is a string. -/
def isStrOpt : Option JsVal → Bool
  | some (.str _) => true
  | _ => false

/-- Whether an optional value is a number. -/
def isNumOpt : Option JsVal → Bool
  | some (.num _) => true
  | _ => false

/-- `['Available','On Hold','Sold','Draft'].includes(v)` (strict
equality: non-strings are never included). -/
def statusAllowed : Option JsVal → Bool
  | some v =>
    decide (v = .str "Available") || decide (v = .str "On Hold") ||
    decide (v = .str "Sold") || decide (v = .str "Draft")
  | none => false

/-- `validateItem` from the source (applied to the already-normalized
item). -/
def validateItem (item : Obj) : List String :=
  (if !(truthyOpt (getF item "id")) || !(isStrOpt (getF item "id"))
   then ["id is required string"] else []) ++
  (if !(truthyOpt (getF item "make")) then ["make is required"] else []) ++
  (if !(truthyOpt (getF item "model")) then ["model is required"] else []) ++
  (if truthyOpt (getF item "year") && !(isNumOpt (getF item "year"))
   then ["year must be number"] else []) ++
  (if truthyOpt (getF item "status") && !(statusAllowed (getF item "status"))
   then ["status must be Available | On Hold | Sold | Draft"] else [])

/-- The derived id `normalizeId(`${item.make}-${item.model}-${item.year || ''}`)`
for an item with a falsy `id`. -/
def deriveId (raw : JsVal) : Except Unit String :=
  match getProp raw "make", getProp raw "model", getProp raw "year" with
  | .ok mk, .ok md, .ok yr =>
    .ok (normalizeId (jsToStringOpt mk ++ "-" ++ jsToStringOpt md ++ "-" ++
      (if truthyOpt yr then jsToStringOpt yr else "")))
  | _, _, _ => .error ()

/-- `{...item, id: item.id ? normalizeId(item.id) : normalizeId(...)}`.
Reading `item.id` off `null` throws, and `normalizeId` applied to a
truthy non-string `id` throws (`.toLowerCase` is not a function). -/
def normItem (raw : JsVal) : Except Unit Obj :=
  match getProp raw "id" with
  | .error u => .error u
  | .ok idv =>
    if truthyOpt idv then
      match idv with
      | some (.str s) => .ok (setField (spreadFields raw) "id" (.str (normalizeId s)))
      | _ => .error ()
    else
      match deriveId raw with
      | .error u => .error u
      | .ok newId => .ok (setField (spreadFields raw) "id" (.str newId))

/-- The id-normalization pass over the incoming batch. -/
def normalizeAll : List JsVal → Except Unit (List Obj)
  | [] => .ok []
  | r :: rs =>
    match normItem r with
    | .error u => .error u
    | .ok o =>
      match normalizeAll rs with
      | .error u => .error u
      | .ok os => .ok (o :: os)

/-- `incoming.flatMap((item, idx) => validateItem(item).map(msg => ...))`. -/
def collectErrors (inc : List Obj) : List String :=
  inc.enum.flatMap (fun p => (validateItem p.2).map (fun msg => s!"item {p.1}: {msg}"))

/-- Payload shape dispatch: bare array, `{items:[...]}`, truthy `{item}`,
else `none` (→ 400).  Property access on a parsed `null` body throws. -/
def extractIncoming : JsVal → Except Unit (Option (List JsVal))
  | .arr xs => .ok (some xs)
  | .null => .error ()
  | .obj f =>
    .ok (match getF f "items" with
      | some (.arr xs) => some xs
      | _ =>
        match getF f "item" with
        | some v => if truthy v then some [v] else none
        | none => none)
  | _ => .ok none

/-- Keys of the in-memory `Map` built from the stored collection: the
`id` property of each record (`none` = `undefined`). -/
abbrev MKey := Option JsVal

/-- `Map.prototype.set`: update in place when the key is present,
otherwise append. -/
def mset (m : List (MKey × JsVal)) (k : MKey) (v : JsVal) : List (MKey × JsVal) :=
  alSet m k v

/-- `Map.prototype.get`. -/
def mget (m : List (MKey × JsVal)) (k : MKey) : Option JsVal := alGet m k

/-- The insertion-ordered key list of the map. -/
def mkeys (m : List (MKey × JsVal)) : List MKey := alKeys m

/-- `[...map.values()]`. -/
def mvalues (m : List (MKey × JsVal)) : List JsVal := m.map Prod.snd

/-- The `id` property of a stored record (`undefined` on non-objects). -/
def exId : JsVal → MKey
  | .obj f => getF f "id"
  | _ => none

/-- `existing.map((i) => [i.id, i])`; reading `.id` off a `null` element
throws (outside every `try`). -/
def entriesOf : List JsVal → Except Unit (List (MKey × JsVal))
  | [] => .ok []
  | v :: vs =>
    if v = .null then .error ()
    else
      match entriesOf vs with
      | .error u => .error u
      | .ok rest => .ok ((exId v, v) :: rest)

/-- `new Map(entries)`: insert every entry in order with `set` semantics. -/
def buildMap (es : List (MKey × JsVal)) : List (MKey × JsVal) :=
  es.foldl (fun m kv => mset m kv.1 kv.2) []

/-- The fields contributed by spreading `map.get(item.id)`
(`{...undefined}` is empty). -/
def spreadBase : Option JsVal → Obj
  | none => []
  | some v => spreadFields v

/-- `{...map.get(item.id), ...item}`: spread of the old record (absent →
empty) updated field-by-field by the incoming item. -/
def spreadMergeJs (old : Option JsVal) (i : Obj) : Obj :=
  i.foldl (fun acc kv => setField acc kv.1 kv.2) (spreadBase old)

/-- One iteration of `incoming.forEach(...)`. -/
def mergeStep (m : List (MKey × JsVal)) (i : Obj) : List (MKey × JsVal) :=
  mset m (getF i "id") (.obj (spreadMergeJs (mget m (getF i "id")) i))

/-- The whole `forEach` upsert loop. -/
def mergeAll (inc : List Obj) (m : List (MKey × JsVal)) : List (MKey × JsVal) :=
  inc.foldl mergeStep m

/-- The value bound to `existing`: absent document and failed read/parse
both degrade to `[]` inside the `catch`. -/
def existingVal : ReadOutcome → JsVal
  | .absent => .arr []
  | .readFail => .arr []
  | .doc v => v

/-- Load-existing, `new Map`, `forEach` merge, `[...map.values()]`.
Calling `.map` on a non-array `existing` throws (outside every `try`). -/
def mergePipeline (stored : ReadOutcome) (inc : List Obj) : Except Unit (List JsVal) :=
  match existingVal stored with
  | .arr l =>
    (match entriesOf l with
     | .error u => .error u
     | .ok es => .ok (mvalues (mergeAll inc (buildMap es))))
  | _ => .error ()

/-- The `Validation failed` 400 body carrying the collected messages. -/
def validationBody (errs : List String) : JsVal :=
  .obj [("error", .str "Validation failed"), ("details", .arr (errs.map .str))]

/-- The tail of `handlePost` after a batch has passed validation: load
existing, merge, persist. -/
def handlePostValidated (inc : List Obj) (stored : ReadOutcome) (writeOk : Bool) :
    Except Unit (Response × Option (List JsVal)) :=
  match mergePipeline stored inc with
  | .error _ => .error ()
  | .ok merged =>
    if writeOk then .ok (resp 200 (.arr merged), some merged)
    else .ok (resp 500 (errBody "Failed to write inventory"), some merged)

/-- The tail of `handlePost` after shape dispatch produced a raw batch:
id normalization, validation, then the merge. -/
def handlePostItems (raws : List JsVal) (stored : ReadOutcome) (writeOk : Bool) :
    Except Unit (Response × Option (List JsVal)) :=
  match normalizeAll raws with
  | .error _ => .error ()
  | .ok inc =>
    let errs := collectErrors inc
    if errs ≠ [] then .ok (resp 400 (validationBody errs), none)
    else handlePostValidated inc stored writeOk

/-- The tail of `handlePost` after a body parsed successfully. -/
def handlePostParsed (payload : JsVal) (stored : ReadOutcome) (writeOk : Bool) :
    Except Unit (Response × Option (List JsVal)) :=
  match extractIncoming payload with
  | .error _ => .error ()
  | .ok none =>
    .ok (resp 400 (errBody "Body must be array, \x7bitems:[]\x7d, or \x7bitem:\x7b\x7d\x7d"), none)
  | .ok (some raws) => handlePostItems raws stored writeOk

/-- `handlePost` from the source.  The result is `.error ()` when the
handler throws an uncaught exception; otherwise it is the HTTP response
paired with the collection passed to `store.set` (`none` = `store.set`
was never called).  `writeOk` is the outcome of the `store.set` call. -/
def handlePost (cfg : Bool) (hdr : Option String) (jwt : Except Unit Obj)
    (bodyParse : Except Unit JsVal) (stored : ReadOutcome) (writeOk : Bool) :
    Except Unit (Response × Option (List JsVal)) :=
  match verifyAuth cfg hdr jwt "inventory:write" with
  | .error e => .ok (resp e.status (errBody e.msg), none)
  | .ok _ =>
    match bodyParse with
    | .error _ => .ok (resp 400 (errBody "Invalid JSON"), none)
    | .ok payload => handlePostParsed payload stored writeOk

/-! ## Basic unfolding lemmas for `handlePost` -/

/-- A failed `verifyAuth` makes `handlePost` return immediately with the
failure's status and message, never calling `store.set`. -/
theorem handlePost_auth_error {cfg : Bool} {hdr : Option String} {jwt : Except Unit Obj}
    (bodyParse : Except Unit JsVal) (stored : ReadOutcome) (writeOk : Bool) {e : AuthErr}
    (h : verifyAuth cfg hdr jwt "inventory:write" = .error e) :
    handlePost cfg hdr jwt bodyParse stored writeOk = .ok (resp e.status (errBody e.msg), none) := by
  unfold handlePost
  rw [h]

/-- After successful auth, a body that failed to parse yields the
`Invalid JSON` 400. -/
theorem handlePost_parse_error {cfg : Bool} {hdr : Option String} {jwt : Except Unit Obj}
    (u : Unit) (stored : ReadOutcome) (writeOk : Bool) {claims : Obj}
    (h : verifyAuth cfg hdr jwt "inventory:write" = .ok claims) :
    handlePost cfg hdr jwt (.error u) stored writeOk = .ok (resp 400 (errBody "Invalid JSON"), none) := by
  unfold handlePost
  rw [h]

/-- After successful auth, `handlePost` on a parsed body is the
post-parse stage. -/
theorem handlePost_parsed {cfg : Bool} {hdr : Option String} {jwt : Except Unit Obj}
    (payload : JsVal) (stored : ReadOutcome) (writeOk : Bool) {claims : Obj}
    (h : verifyAuth cfg hdr jwt "inventory:write" = .ok claims) :
    handlePost cfg hdr jwt (.ok payload) stored writeOk = handlePostParsed payload stored writeOk := by
  unfold handlePost
  rw [h]

/-! ## C1: missing scope on an otherwise-verified token -/

/-- A fixed verified claim set whose `scope` claim lacks
`inventory:write`. -/
def readOnlyClaims : Obj := [("scope", JsVal.str "inventory:read openid")]

/-- C1 (code bug): when the bearer token passes `jwtVerify` but the
required scope is absent from the space-split `scope` claim, `verifyAuth`
does NOT fail with 403: the 403 `Forbidden` error is thrown inside the
`try` block (as `verifyAuthTry` shows), the `catch` swallows it, and the
caller observes a fresh 401 `Unauthorized` instead. -/
theorem verifyAuth_missing_scope_is_401_not_403 :
    verifyAuthTry (.ok readOnlyClaims) "inventory:write"
      = .error (.scopeErr ⟨403, "Forbidden: missing scope"⟩) ∧
    verifyAuth true (some "Bearer token") (.ok readOnlyClaims) "inventory:write"
      = .error ⟨401, "Unauthorized"⟩ := by
  constructor <;> rfl

/-! ## C2: unauthorized POST never writes -/

/-- C2: whenever `verifyAuth` fails for the `inventory:write` scope —
missing header, malformed header, invalid token, missing scope, or
missing configuration — `handlePost` returns that failure's status code
and never calls `store.set`, so the stored document is untouched. -/
theorem handlePost_unauthorized_no_mutation (cfg : Bool) (hdr : Option String)
    (jwt : Except Unit Obj) (bodyParse : Except Unit JsVal) (stored : ReadOutcome)
    (writeOk : Bool) (e : AuthErr)
    (h : verifyAuth cfg hdr jwt "inventory:write" = .error e) :
    handlePost cfg hdr jwt bodyParse stored writeOk = .ok (resp e.status (errBody e.msg), none) :=
  handlePost_auth_error bodyParse stored writeOk h

/-- Witness for C2 at a concrete unauthorized request (missing header). -/
theorem handlePost_unauthorized_no_mutation_witness :
    verifyAuth true none (.error ()) "inventory:write" = .error ⟨401, "Unauthorized"⟩ ∧
    handlePost true none (.error ()) (.ok (.arr [])) (.doc (.arr [.obj [("id", .str "a")]])) true
      = .ok (resp 401 (errBody "Unauthorized"), none) :=
  ⟨rfl, handlePost_unauthorized_no_mutation true none (.error ()) (.ok (.arr []))
    (.doc (.arr [.obj [("id", .str "a")]])) true ⟨401, "Unauthorized"⟩ rfl⟩

/-! ## C9: accepted body shapes -/

/-- The three accepted body shapes, stated from the spec: a bare array,
an object whose `items` field is an array, or an object with a truthy
`item` field. -/
def acceptedShape (p : JsVal) : Prop :=
  (∃ xs, p = .arr xs) ∨
  (∃ f xs, p = .obj f ∧ getF f "items" = some (.arr xs)) ∨
  (∃ f v, p = .obj f ∧ getF f "item" = some v ∧ truthy v = true)

/-- A parsed body of one of the three accepted shapes passes the shape
dispatch. -/
theorem extractIncoming_of_acceptedShape {p : JsVal} (h : acceptedShape p) :
    ∃ xs, extractIncoming p = .ok (some xs) := by
  rcases h with ⟨xs, rfl⟩ | ⟨f, xs, rfl, hits⟩ | ⟨f, v, rfl, hit, htr⟩
  · exact ⟨xs, rfl⟩
  · exact ⟨xs, by simp [extractIncoming, hits]⟩
  · cases hits : getF f "items" with
    | some w =>
      cases w with
      | arr ys => exact ⟨ys, by simp [extractIncoming, hits]⟩
      | str s => exact ⟨[v], by simp [extractIncoming, hits, hit, htr]⟩
      | num n => exact ⟨[v], by simp [extractIncoming, hits, hit, htr]⟩
      | bool b => exact ⟨[v], by simp [extractIncoming, hits, hit, htr]⟩
      | null => exact ⟨[v], by simp [extractIncoming, hits, hit, htr]⟩
      | obj g => exact ⟨[v], by simp [extractIncoming, hits, hit, htr]⟩
    | none => exact ⟨[v], by simp [extractIncoming, hits, hit, htr]⟩

/-- A successfully parsed non-`null` body of none of the three shapes is
rejected by the shape dispatch. -/
theorem extractIncoming_of_rejected {p : JsVal} (hnull : p ≠ .null)
    (hacc : ¬acceptedShape p) : extractIncoming p = .ok none := by
  cases p with
  | str s => rfl
  | num n => rfl
  | bool b => rfl
  | null => exact absurd rfl hnull
  | arr xs => exact absurd (Or.inl ⟨xs, rfl⟩) hacc
  | obj f =>
    have hits : ∀ xs, getF f "items" ≠ some (.arr xs) := by
      intro xs hx
      exact hacc (Or.inr (Or.inl ⟨f, xs, rfl, hx⟩))
    have hit : ∀ v, getF f "item" = some v → truthy v = false := by
      intro v hv
      cases htr : truthy v with
      | true => exact absurd (Or.inr (Or.inr ⟨f, v, rfl, hv, htr⟩)) hacc
      | false => rfl
    simp only [extractIncoming]
    cases h₁ : getF f "items" with
    | some w =>
      cases w with
      | arr ys => exact absurd h₁ (hits ys)
      | str s =>
        cases h₂ : getF f "item" with
        | some v => simp [hit v h₂]
        | none => simp
      | num n =>
        cases h₂ : getF f "item" with
        | some v => simp [hit v h₂]
        | none => simp
      | bool b =>
        cases h₂ : getF f "item" with
        | some v => simp [hit v h₂]
        | none => simp
      | null =>
        cases h₂ : getF f "item" with
        | some v => simp [hit v h₂]
        | none => simp
      | obj g =>
        cases h₂ : getF f "item" with
        | some v => simp [hit v h₂]
        | none => simp
    | none =>
      cases h₂ : getF f "item" with
      | some v => simp [hit v h₂]
      | none => simp

/-- C9 counterexample: the body `null` parses successfully as JSON, yet
the handler throws an uncaught `TypeError` (reading `payload.items` off
`null`) instead of returning any HTTP response. -/
theorem handlePost_null_body_throws :
    handlePost true (some "Bearer token") (.ok [("scope", JsVal.str "inventory:write")])
      (.ok .null) .absent true = .error () := rfl

/-- C9 as amended: after successful auth the handler accepts exactly the
three documented body shapes; every other successfully parsed body other
than the JSON literal `null` gets a 400 response (not a throw), and a
body that fails to parse gets the `Invalid JSON` 400. -/
theorem handlePost_body_shapes (cfg : Bool) (hdr : Option String) (jwt : Except Unit Obj)
    (stored : ReadOutcome) (writeOk : Bool) (claims : Obj)
    (hauth : verifyAuth cfg hdr jwt "inventory:write" = .ok claims) :
    (∀ p, acceptedShape p → ∃ xs, extractIncoming p = .ok (some xs)) ∧
    (∀ p, p ≠ .null → ¬acceptedShape p →
      handlePost cfg hdr jwt (.ok p) stored writeOk
        = .ok (resp 400 (errBody "Body must be array, \x7bitems:[]\x7d, or \x7bitem:\x7b\x7d\x7d"), none)) ∧
    handlePost cfg hdr jwt (.error ()) stored writeOk
      = .ok (resp 400 (errBody "Invalid JSON"), none) := by
  refine ⟨fun p h => extractIncoming_of_acceptedShape h, fun p hnull hacc => ?_,
    handlePost_parse_error () stored writeOk hauth⟩
  rw [handlePost_parsed p stored writeOk hauth]
  unfold handlePostParsed
  rw [extractIncoming_of_rejected hnull hacc]

/-- Witness for C9's amended theorem at a concrete authorized request,
checking the 400 on a parsed non-`null` body of the wrong shape. -/
theorem handlePost_body_shapes_witness :
    verifyAuth true (some "Bearer token") (.ok [("scope", JsVal.str "inventory:write")])
        "inventory:write" = .ok [("scope", JsVal.str "inventory:write")] ∧
    JsVal.num 7 ≠ JsVal.null ∧ ¬acceptedShape (.num 7) ∧
    handlePost true (some "Bearer token") (.ok [("scope", JsVal.str "inventory:write")])
        (.ok (.num 7)) .absent true
      = .ok (resp 400 (errBody "Body must be array, \x7bitems:[]\x7d, or \x7bitem:\x7b\x7d\x7d"), none) := by
  have hnn : JsVal.num 7 ≠ JsVal.null := by intro h; cases h
  have hacc : ¬acceptedShape (.num 7) := by
    rintro (⟨xs, h⟩ | ⟨f, xs, h, hits⟩ | ⟨f, v, h, hit, htr⟩) <;> cases h
  exact ⟨rfl, hnn, hacc,
    (handlePost_body_shapes true (some "Bearer token")
      (.ok [("scope", JsVal.str "inventory:write")]) .absent true
      [("scope", JsVal.str "inventory:write")] rfl).2.1 (.num 7) hnn hacc⟩

/-! ## C10: non-array stored document crashes POST but not GET -/

/-- C10: with valid auth and a valid one-item batch, a stored document
holding the valid JSON `{}` (not an array) makes `handlePost` throw an
uncaught `TypeError` (`existing.map` escapes the read-only `catch`),
while `handleGet` on the same document returns 200 with `[]` thanks to
its `Array.isArray` guard. -/
theorem handlePost_nonarray_doc_throws_but_get_tolerates :
    handlePost true (some "Bearer token") (.ok [("scope", JsVal.str "inventory:write")])
        (.ok (.arr [.obj [("id", .str "a"), ("make", .str "Ford"), ("model", .str "T")]]))
        (.doc (.obj [])) true = .error () ∧
    handleGet true false none (.error ()) (.doc (.obj [])) = resp 200 (.arr []) := by
  constructor <;> rfl

/-! ## C6: `normalizeId` is idempotent

The output of `normalizeId` consists of characters matching `[a-z0-9]`
and isolated hyphens, with no hyphen at either end; each stage of a
second pass fixes such a list. -/

/-- Adjacent output characters are never both hyphens. -/
def hyRel (a b : Char) : Prop := isAlnumL a = true ∨ isAlnumL b = true

theorem hyRel_symm {a b : Char} (h : hyRel a b) : hyRel b a := h.symm

theorem isJsUpper_eq_false_of_alnum {c : Char} (h : isAlnumL c = true) :
    isJsUpper c = false := by
  simp only [isAlnumL, Bool.or_eq_true, Bool.and_eq_true, decide_eq_true_eq] at h
  simp only [isJsUpper, Bool.and_eq_false_iff, decide_eq_false_iff_not, not_le]
  omega

theorem jsLowerChar_fixed {c : Char} (h : isAlnumL c = true ∨ c = '-') :
    jsLowerChar c = c := by
  rcases h with h | rfl
  · simp [jsLowerChar, isJsUpper_eq_false_of_alnum h]
  · decide

theorem isJsWs_eq_false {c : Char} (h : isAlnumL c = true ∨ c = '-') :
    isJsWs c = false := by
  rcases h with h | rfl
  · simp only [isAlnumL, Bool.or_eq_true, Bool.and_eq_true, decide_eq_true_eq] at h
    simp only [isJsWs, Bool.or_eq_false_iff, Bool.and_eq_false_iff,
      decide_eq_false_iff_not, not_le]
    omega
  · decide

theorem mem_collapseAux {c : Char} :
    ∀ (b : Bool) (l : List Char), c ∈ collapseAux b l → isAlnumL c = true ∨ c = '-'
  | _, [], h => by cases h
  | b, a :: l, h => by
    by_cases ha : isAlnumL a = true
    · rw [collapseAux, if_pos ha] at h
      rcases List.mem_cons.1 h with rfl | h
      · exact Or.inl ha
      · exact mem_collapseAux false l h
    · cases b with
      | true =>
        rw [collapseAux, if_neg ha] at h
        exact mem_collapseAux true l (by simpa using h)
      | false =>
        rw [collapseAux, if_neg ha] at h
        rcases (by simpa using h : c = '-' ∨ c ∈ collapseAux true l) with rfl | h
        · exact Or.inr rfl
        · exact mem_collapseAux true l h

theorem head_collapseAux_true {c : Char} :
    ∀ l : List Char, (collapseAux true l).head? = some c → isAlnumL c = true
  | [], h => by cases h
  | a :: l, h => by
    by_cases ha : isAlnumL a = true
    · rw [collapseAux, if_pos ha] at h
      cases h
      exact ha
    · rw [collapseAux, if_neg ha, if_pos rfl] at h
      exact head_collapseAux_true l h

theorem chain'_collapseAux : ∀ (b : Bool) (l : List Char), List.Chain' hyRel (collapseAux b l)
  | _, [] => List.chain'_nil
  | b, a :: l => by
    by_cases ha : isAlnumL a = true
    · rw [collapseAux, if_pos ha]
      exact List.chain'_cons'.2 ⟨fun y _ => Or.inl ha, chain'_collapseAux false l⟩
    · rw [collapseAux, if_neg ha]
      cases b with
      | true => simpa using chain'_collapseAux true l
      | false =>
        simp only [Bool.false_eq_true, if_false]
        refine List.chain'_cons'.2 ⟨fun y hy => ?_, chain'_collapseAux true l⟩
        exact Or.inr (head_collapseAux_true l hy)

theorem collapseAux_fix :
    ∀ l : List Char, (∀ c ∈ l, isAlnumL c = true ∨ c = '-') → List.Chain' hyRel l →
      collapseAux false l = l ∧
        ((∀ c, l.head? = some c → isAlnumL c = true) → collapseAux true l = l)
  | [], _, _ => ⟨rfl, fun _ => rfl⟩
  | a :: l, hmem, hch => by
    have hch' : List.Chain' hyRel l := (List.chain'_cons'.1 hch).2
    have hrel : ∀ y ∈ l.head?, hyRel a y := (List.chain'_cons'.1 hch).1
    have ih := collapseAux_fix l (fun c hc => hmem c (List.mem_cons_of_mem a hc)) hch'
    by_cases ha : isAlnumL a = true
    · have hfix : collapseAux false l = l := ih.1
      constructor
      · rw [collapseAux, if_pos ha, hfix]
      · intro _
        rw [collapseAux, if_pos ha, hfix]
    · have ha' : a = '-' := (hmem a (List.mem_cons_self a l)).resolve_left ha
      have hheads : ∀ c, l.head? = some c → isAlnumL c = true := by
        intro c hc
        have := hrel c (by simp [hc])
        rcases this with h | h
        · exact absurd h ha
        · exact h
      constructor
      · rw [collapseAux, if_neg ha]
        simp only [Bool.false_eq_true, if_false]
        rw [ih.2 hheads, ha']
      · intro hhd
        exact absurd (hhd a rfl) ha

theorem dropWhile_eq_self_of_head {p : Char → Bool} :
    ∀ l : List Char, (∀ c, l.head? = some c → p c = false) → l.dropWhile p = l
  | [], _ => rfl
  | a :: l, h => by
    rw [List.dropWhile_cons, if_neg]
    simp [h a rfl]

theorem dropWhile_eq_self_of_all {p : Char → Bool} (l : List Char)
    (h : ∀ c ∈ l, p c = false) : l.dropWhile p = l :=
  dropWhile_eq_self_of_head l fun c hc =>
    h c (by cases l with | nil => cases hc | cons a t => cases hc; exact List.mem_cons_self c t)

theorem chain'_of_suffix {α : Type} {R : α → α → Prop} {l₁ l₂ : List α}
    (hs : l₁ <:+ l₂) (h : List.Chain' R l₂) : List.Chain' R l₁ := by
  obtain ⟨t, rfl⟩ := hs
  exact (List.chain'_append.1 h).2.1

theorem chain'_of_reverse {l : List Char} (h : List.Chain' hyRel l) :
    List.Chain' hyRel l.reverse := by
  rw [List.chain'_reverse]
  exact h.imp fun _ _ => hyRel_symm

theorem mem_stripHyphens {c : Char} {l : List Char} (h : c ∈ stripHyphens l) : c ∈ l := by
  unfold stripHyphens at h
  rw [List.mem_reverse] at h
  have h₂ := (List.dropWhile_sublist _).subset h
  rw [List.mem_reverse] at h₂
  exact (List.dropWhile_sublist _).subset h₂

theorem chain'_stripHyphens {l : List Char} (h : List.Chain' hyRel l) :
    List.Chain' hyRel (stripHyphens l) := by
  unfold stripHyphens
  exact chain'_of_reverse (chain'_of_suffix (List.dropWhile_suffix _)
    (chain'_of_reverse (chain'_of_suffix (List.dropWhile_suffix _) h)))

theorem stripHyphens_last_not_hyphen {l : List Char} {c : Char}
    (h : (stripHyphens l).reverse.head? = some c) : (c == '-') = false := by
  rw [stripHyphens, List.reverse_reverse] at h
  have := List.head?_dropWhile_not (fun d => d == '-') (l.dropWhile (fun d => d == '-')).reverse
  rw [h] at this
  simpa using this

theorem stripHyphens_head_not_hyphen {l : List Char} {c : Char}
    (h : (stripHyphens l).head? = some c) : (c == '-') = false := by
  rw [stripHyphens, List.head?_reverse] at h
  set y := (l.dropWhile (fun d => d == '-')).reverse with hy
  obtain ⟨t, ht⟩ := List.dropWhile_suffix (l := y) (fun d => d == '-')
  have hne : y.dropWhile (fun d => d == '-') ≠ [] := by
    intro hnil
    rw [hnil] at h
    cases h
  have hlast : (y.dropWhile (fun d => d == '-')).getLast? = y.getLast? := by
    conv_rhs => rw [← ht]
    exact (List.getLast?_append_of_ne_nil t hne).symm
  rw [hlast, hy, List.getLast?_reverse] at h
  have := List.head?_dropWhile_not (fun d => d == '-') l
  rw [h] at this
  simpa using this

/-- Every character of a `normalizeId`-style output is `[a-z0-9]` or a
hyphen. -/
theorem normalized_mem {x : List Char} {c : Char}
    (h : c ∈ stripHyphens (collapseAux false x)) : isAlnumL c = true ∨ c = '-' :=
  mem_collapseAux false x (mem_stripHyphens h)

theorem map_eq_self_of_fixed {f : Char → Char} :
    ∀ l : List Char, (∀ c ∈ l, f c = c) → l.map f = l
  | [], _ => rfl
  | a :: l, h => by
    rw [List.map_cons, h a (List.mem_cons_self a l),
      map_eq_self_of_fixed l fun c hc => h c (List.mem_cons_of_mem a hc)]

/-- C6: `normalizeId` is idempotent. -/
theorem normalizeId_idempotent (s : String) : normalizeId (normalizeId s) = normalizeId s := by
  unfold normalizeId
  apply congrArg String.mk
  set x := trimList (s.data.map jsLowerChar) with hx
  set r := stripHyphens (collapseAux false x) with hr
  have hgood : ∀ c ∈ r, isAlnumL c = true ∨ c = '-' := fun c hc => normalized_mem hc
  have hmap : r.map jsLowerChar = r :=
    map_eq_self_of_fixed r fun c hc => jsLowerChar_fixed (hgood c hc)
  have htrim : trimList r = r := by
    unfold trimList
    rw [dropWhile_eq_self_of_all r fun c hc => isJsWs_eq_false (hgood c hc)]
    rw [dropWhile_eq_self_of_all r.reverse
      (fun c hc => isJsWs_eq_false (hgood c (List.mem_reverse.1 hc)))]
    exact List.reverse_reverse r
  have hchain : List.Chain' hyRel r := chain'_stripHyphens (chain'_collapseAux false x)
  have hhead : ∀ c, r.head? = some c → isAlnumL c = true := by
    intro c hc
    have hmem : c ∈ r := by
      cases hrr : r with
      | nil => rw [hrr] at hc; cases hc
      | cons a t =>
        rw [hrr] at hc
        cases hc
        exact List.mem_cons_self c t
    rcases hgood c hmem with h | rfl
    · exact h
    · have := stripHyphens_head_not_hyphen (l := collapseAux false x) (hr ▸ hc)
      simp at this
  have hcoll : collapseAux false r = r := (collapseAux_fix r hgood hchain).1
  have hstrip : stripHyphens r = r := by
    unfold stripHyphens
    rw [dropWhile_eq_self_of_head r fun c hc => stripHyphens_head_not_hyphen (hr ▸ hc)]
    rw [dropWhile_eq_self_of_head r.reverse
      (fun c hc => stripHyphens_last_not_hyphen (hr ▸ hc))]
    exact List.reverse_reverse r
  calc stripHyphens (collapseAux false (trimList ((String.mk r).data.map jsLowerChar)))
      = stripHyphens (collapseAux false (trimList r)) := by rw [show (String.mk r).data = r from rfl, hmap]
    _ = r := by rw [htrim, hcoll, hstrip]

/-! ## C8: draft visibility on GET -/

theorem filterDrafts_no_draft :
    ∀ {xs kept : List JsVal}, filterDrafts xs = .ok kept →
      ∀ v ∈ kept, statusFld v ≠ some (.str "Draft") := by
  intro xs
  induction xs with
  | nil =>
    intro kept h v hv
    cases h
    cases hv
  | cons a xs ih =>
    intro kept h v hv
    rw [filterDrafts] at h
    by_cases ha : a = JsVal.null
    · rw [if_pos ha] at h
      exact Except.noConfusion h
    · rw [if_neg ha] at h
      cases he : filterDrafts xs with
      | error u => rw [he] at h; exact Except.noConfusion h
      | ok rest =>
        simp only [he] at h
        by_cases hd : statusFld a = some (.str "Draft")
        · rw [if_pos hd] at h
          injection h with h'
          subst h'
          exact ih he v hv
        · rw [if_neg hd] at h
          injection h with h'
          subst h'
          rcases List.mem_cons.1 hv with rfl | hv
          · exact hd
          · exact ih he v hv

theorem filterDrafts_mem_of :
    ∀ {xs kept : List JsVal}, filterDrafts xs = .ok kept →
      ∀ v ∈ xs, statusFld v ≠ some (.str "Draft") → v ∈ kept := by
  intro xs
  induction xs with
  | nil =>
    intro kept _ v hv
    cases hv
  | cons a xs ih =>
    intro kept h v hv hvd
    rw [filterDrafts] at h
    by_cases ha : a = JsVal.null
    · rw [if_pos ha] at h
      exact Except.noConfusion h
    · rw [if_neg ha] at h
      cases he : filterDrafts xs with
      | error u => rw [he] at h; exact Except.noConfusion h
      | ok rest =>
        simp only [he] at h
        by_cases hd : statusFld a = some (.str "Draft")
        · rw [if_pos hd] at h
          injection h with h'
          subst h'
          rcases List.mem_cons.1 hv with rfl | hv
          · exact absurd hd hvd
          · exact ih he v hv hvd
        · rw [if_neg hd] at h
          injection h with h'
          subst h'
          rcases List.mem_cons.1 hv with rfl | hv
          · exact List.mem_cons_self v rest
          · exact List.mem_cons_of_mem a (ih he v hv hvd)

/-- A successful `verifyAuth` implies the authorization header was a
truthy string (it had to lead with `bearer `). -/
theorem hdrTruthy_of_verifyAuth_ok {cfg : Bool} {hdr : Option String} {jwt : Except Unit Obj}
    {s : String} {p : Obj} (h : verifyAuth cfg hdr jwt s = .ok p) : hdrTruthy hdr = true := by
  cases cfg with
  | false => simp [verifyAuth] at h
  | true =>
    cases hdr with
    | none => simp [verifyAuth] at h
    | some hh =>
      by_cases hb : hdrIsBearer hh = true
      · have : hh ≠ "" := by
          intro hEq
          subst hEq
          exact absurd hb (by decide)
        simp [hdrTruthy, this]
      · have hb' : hdrIsBearer hh = false := by
          cases hx : hdrIsBearer hh
          · rfl
          · exact absurd hx hb
        simp [verifyAuth, hb'] at h

/-- C8: a GET without successfully elevated auth never returns an item
whose `status` is `"Draft"` while returning every stored non-draft item
(absent status included); a GET with `includeDrafts=1` and a token that
verifies with scope `inventory:read` returns the stored collection
unfiltered. -/
theorem handleGet_draft_visibility (cfg qs : Bool) (hdr : Option String)
    (jwt : Except Unit Obj) (stored : ReadOutcome) :
    (¬(qs = true ∧ hdrTruthy hdr = true ∧
        (verifyAuth cfg hdr jwt "inventory:read").isOk = true) →
      ∀ l, handleGet cfg qs hdr jwt stored = resp 200 (.arr l) →
        (∀ v ∈ l, statusFld v ≠ some (.str "Draft")) ∧
        (∀ ex, stored = .doc (.arr ex) →
          ∀ v ∈ ex, statusFld v ≠ some (.str "Draft") → v ∈ l)) ∧
    (∀ claims ex, qs = true → verifyAuth cfg hdr jwt "inventory:read" = .ok claims →
      stored = .doc (.arr ex) → handleGet cfg qs hdr jwt stored = resp 200 (.arr ex)) := by
  constructor
  · intro hne l hl
    have hfalse : (qs && hdrTruthy hdr && (verifyAuth cfg hdr jwt "inventory:read").isOk) = false := by
      cases hq : qs with
      | false => simp [hq]
      | true =>
        cases hh : hdrTruthy hdr with
        | false => simp [hh]
        | true =>
          cases ho : (verifyAuth cfg hdr jwt "inventory:read").isOk with
          | false => simp [hh, ho]
          | true => exact absurd ⟨hq, hh, ho⟩ hne
    unfold handleGet at hl
    rw [hfalse] at hl
    cases stored with
    | absent =>
      simp only [handleGetCore, resp, Response.mk.injEq, JsVal.arr.injEq, true_and] at hl
      subst hl
      exact ⟨fun v hv => absurd hv (List.not_mem_nil v), fun ex hex => ReadOutcome.noConfusion hex⟩
    | readFail => simp [handleGetCore, resp] at hl
    | doc v =>
      simp only [handleGetCore, Bool.false_eq_true, if_false] at hl
      cases hf : filterDrafts (listOf v) with
      | error u => rw [hf] at hl; simp [resp] at hl
      | ok kept =>
        rw [hf] at hl
        simp only [resp, Response.mk.injEq, JsVal.arr.injEq, true_and] at hl
        subst hl
        refine ⟨filterDrafts_no_draft hf, ?_⟩
        intro ex hex v hv hvd
        injection hex with hv'
        subst hv'
        exact filterDrafts_mem_of hf v hv hvd
  · intro claims ex hq hok hst
    subst hq
    subst hst
    have hh := hdrTruthy_of_verifyAuth_ok hok
    have hOk : (verifyAuth cfg hdr jwt "inventory:read").isOk = true := by
      rw [hok]
      rfl
    simp [handleGet, handleGetCore, hh, hOk, listOf]

/-- A stored draft record. -/
def draftItem : JsVal := .obj [("id", .str "d"), ("status", .str "Draft")]

/-- A stored record with no `status` field. -/
def plainItem : JsVal := .obj [("id", .str "p")]

/-- Witness for C8: a public GET over a draft and a status-less record
keeps exactly the status-less one, and an elevated GET returns both. -/
theorem handleGet_draft_visibility_witness :
    ((∀ v ∈ [plainItem], statusFld v ≠ some (.str "Draft")) ∧
     (∀ ex, ReadOutcome.doc (.arr [draftItem, plainItem]) = .doc (.arr ex) →
        ∀ v ∈ ex, statusFld v ≠ some (.str "Draft") → v ∈ [plainItem])) ∧
    handleGet true true (some "Bearer tok") (.ok [("scope", .str "inventory:read")])
        (.doc (.arr [draftItem, plainItem])) = resp 200 (.arr [draftItem, plainItem]) := by
  constructor
  · exact (handleGet_draft_visibility true false none (.error ())
      (.doc (.arr [draftItem, plainItem]))).1 (by simp) [plainItem] rfl
  · exact (handleGet_draft_visibility true true (some "Bearer tok")
      (.ok [("scope", .str "inventory:read")]) (.doc (.arr [draftItem, plainItem]))).2
      [("scope", .str "inventory:read")] [draftItem, plainItem] rfl rfl rfl

/-! ## C7: exhaustive validation -/

/-- C7 counterexample: a batch containing the invalid item `{"id": 5}`
(`id` is not a string, `make`/`model` missing) does not get a 400 with
details: id normalization runs before validation and
`normalizeId(5).toLowerCase` throws an uncaught `TypeError`. -/
theorem handlePost_invalid_id_type_throws :
    handlePost true (some "Bearer token") (.ok [("scope", JsVal.str "inventory:write")])
      (.ok (.arr [.obj [("id", .num 5)]])) .absent true = .error () := rfl

/-- C7 as amended: for every authenticated POST whose batch survives id
normalization (no `null` item and no truthy non-string `id`) and fails
validation, the handler returns 400 carrying one message per violation
across all items — the number of `details` entries is the total count of
violations, every entry is tagged with its item's zero-based index, and
every violation of every item appears — and persists nothing. -/
theorem handlePost_validation_exhaustive (cfg : Bool) (hdr : Option String)
    (jwt : Except Unit Obj) (stored : ReadOutcome) (writeOk : Bool) (claims : Obj)
    (payload : JsVal) (raws : List JsVal) (inc : List Obj)
    (hauth : verifyAuth cfg hdr jwt "inventory:write" = .ok claims)
    (hext : extractIncoming payload = .ok (some raws))
    (hnorm : normalizeAll raws = .ok inc)
    (hbad : collectErrors inc ≠ []) :
    handlePost cfg hdr jwt (.ok payload) stored writeOk
      = .ok (resp 400 (validationBody (collectErrors inc)), none) ∧
    (collectErrors inc).length = (inc.map (fun o => (validateItem o).length)).sum ∧
    (∀ e ∈ collectErrors inc, ∃ (idx : Nat) (o : Obj) (msg : String),
      inc[idx]? = some o ∧ msg ∈ validateItem o ∧ e = s!"item {idx}: {msg}") ∧
    (∀ (idx : Nat) (o : Obj), inc[idx]? = some o →
      ∀ msg ∈ validateItem o, (s!"item {idx}: {msg}") ∈ collectErrors inc) := by
  refine ⟨?_, ?_, ?_, ?_⟩
  · rw [handlePost_parsed payload stored writeOk hauth]
    unfold handlePostParsed
    simp only [hext]
    unfold handlePostItems
    simp only [hnorm]
    simp only [if_pos hbad]
  · rw [collectErrors, List.length_flatMap]
    have h₁ : (List.length ∘ fun p : Nat × Obj =>
        (validateItem p.2).map (fun msg => s!"item {p.1}: {msg}"))
        = fun p : Nat × Obj => (validateItem p.2).length := by
      funext p
      exact List.length_map _ _
    rw [h₁]
    have h₂ : inc.enum.map (fun p : Nat × Obj => (validateItem p.2).length)
        = (inc.enum.map Prod.snd).map (fun o => (validateItem o).length) := by
      rw [List.map_map]
      rfl
    rw [h₂, List.enum_map_snd]
  · intro e he
    rw [collectErrors] at he
    obtain ⟨p, hp, hm⟩ := List.mem_flatMap.1 he
    obtain ⟨msg, hmsg, rfl⟩ := List.mem_map.1 hm
    refine ⟨p.1, p.2, msg, ?_, hmsg, rfl⟩
    simpa using List.mem_enum_iff_getElem?.1 hp
  · intro idx o hget msg hmsg
    rw [collectErrors]
    refine List.mem_flatMap.2 ⟨(idx, o), ?_, List.mem_map.2 ⟨msg, hmsg, rfl⟩⟩
    exact List.mk_mem_enum_iff_getElem?.2 (by simpa using hget)

/-- Witness for C7's amended theorem: two items each missing `make`
produce exactly two `details` entries, tagged `item 0:` and `item 1:`. -/
theorem handlePost_validation_exhaustive_witness :
    normalizeAll [.obj [("id", .str "A"), ("model", .str "m1")],
                  .obj [("id", .str "B"), ("model", .str "m2")]]
      = .ok [[("id", .str "a"), ("model", .str "m1")],
             [("id", .str "b"), ("model", .str "m2")]] ∧
    collectErrors [[("id", .str "a"), ("model", .str "m1")],
                   [("id", .str "b"), ("model", .str "m2")]]
      = ["item 0: make is required", "item 1: make is required"] ∧
    handlePost true (some "Bearer token") (.ok [("scope", JsVal.str "inventory:write")])
        (.ok (.arr [.obj [("id", .str "A"), ("model", .str "m1")],
                    .obj [("id", .str "B"), ("model", .str "m2")]])) .absent true
      = .ok (resp 400 (validationBody
          (collectErrors [[("id", .str "a"), ("model", .str "m1")],
                          [("id", .str "b"), ("model", .str "m2")]])), none) := by
  refine ⟨rfl, rfl, ?_⟩
  exact (handlePost_validation_exhaustive true (some "Bearer token")
    (.ok [("scope", JsVal.str "inventory:write")]) .absent true
    [("scope", JsVal.str "inventory:write")]
    (.arr [.obj [("id", .str "A"), ("model", .str "m1")],
           .obj [("id", .str "B"), ("model", .str "m2")]])
    [.obj [("id", .str "A"), ("model", .str "m1")],
     .obj [("id", .str "B"), ("model", .str "m2")]]
    [[("id", .str "a"), ("model", .str "m1")],
     [("id", .str "b"), ("model", .str "m2")]]
    rfl rfl rfl (by decide)).1

/-! ## Association list lemmas (shared by object spread and `Map`) -/

section AssocLemmas

variable {κ : Type} [DecidableEq κ]

theorem alKeys_cons (e : κ × JsVal) (m : List (κ × JsVal)) :
    alKeys (e :: m) = e.1 :: alKeys m := rfl

theorem alGet_alSet_self (m : List (κ × JsVal)) (k : κ) (v : JsVal) :
    alGet (alSet m k v) k = some v := by
  induction m with
  | nil => simp [alSet, alGet]
  | cons e m ih =>
    obtain ⟨k₁, v₁⟩ := e
    by_cases hk : k₁ = k
    · rw [alSet, if_pos hk, alGet, if_pos hk]
    · rw [alSet, if_neg hk, alGet, if_neg hk]
      exact ih

theorem alGet_alSet_ne (m : List (κ × JsVal)) {k k' : κ} (v : JsVal) (h : k' ≠ k) :
    alGet (alSet m k v) k' = alGet m k' := by
  induction m with
  | nil =>
    have h' : k ≠ k' := fun he => h he.symm
    simp [alSet, alGet, h']
  | cons e m ih =>
    obtain ⟨k₁, v₁⟩ := e
    by_cases hk : k₁ = k
    · subst hk
      have h' : k₁ ≠ k' := fun he => h he.symm
      rw [alSet, if_pos rfl, alGet, if_neg h', alGet, if_neg h']
    · rw [alSet, if_neg hk, alGet, alGet]
      by_cases hk' : k₁ = k'
      · rw [if_pos hk', if_pos hk']
      · rw [if_neg hk', if_neg hk']
        exact ih

theorem alKeys_alSet (m : List (κ × JsVal)) (k : κ) (v : JsVal) :
    alKeys (alSet m k v) = if k ∈ alKeys m then alKeys m else alKeys m ++ [k] := by
  induction m with
  | nil => simp [alSet, alKeys]
  | cons e m ih =>
    obtain ⟨k₁, v₁⟩ := e
    by_cases hk : k₁ = k
    · subst hk
      rw [alSet, if_pos rfl, alKeys_cons, alKeys_cons, if_pos (List.mem_cons_self _ _)]
    · rw [alSet, if_neg hk, alKeys_cons, alKeys_cons, ih]
      have hne : k ≠ k₁ := fun he => hk he.symm
      by_cases hm : k ∈ alKeys m
      · rw [if_pos hm, if_pos (List.mem_cons_of_mem _ hm)]
      · rw [if_neg hm, if_neg (by simp [List.mem_cons, hne, hm])]
        rfl

theorem alKeys_alSet_of_mem {m : List (κ × JsVal)} {k : κ} (v : JsVal)
    (h : k ∈ alKeys m) : alKeys (alSet m k v) = alKeys m := by
  rw [alKeys_alSet, if_pos h]

theorem alKeys_alSet_of_not_mem {m : List (κ × JsVal)} {k : κ} (v : JsVal)
    (h : k ∉ alKeys m) : alKeys (alSet m k v) = alKeys m ++ [k] := by
  rw [alKeys_alSet, if_neg h]

theorem alSet_of_not_mem {m : List (κ × JsVal)} {k : κ} (v : JsVal) (h : k ∉ alKeys m) :
    alSet m k v = m ++ [(k, v)] := by
  induction m with
  | nil => rfl
  | cons e m ih =>
    obtain ⟨k₁, v₁⟩ := e
    rw [alKeys_cons] at h
    have hk : k₁ ≠ k := fun he => h (by simp [he])
    rw [alSet, if_neg hk, List.cons_append, ih (fun hm => h (List.mem_cons_of_mem _ hm))]

theorem alGet_eq_none_of_not_mem {m : List (κ × JsVal)} {k : κ} (h : k ∉ alKeys m) :
    alGet m k = none := by
  induction m with
  | nil => rfl
  | cons e m ih =>
    obtain ⟨k₁, v₁⟩ := e
    rw [alKeys_cons] at h
    have hk : k₁ ≠ k := fun he => h (by simp [he])
    rw [alGet, if_neg hk]
    exact ih (fun hm => h (List.mem_cons_of_mem _ hm))

theorem alGet_isSome_of_mem {m : List (κ × JsVal)} {p : κ × JsVal} (h : p ∈ m) :
    ∃ w, alGet m p.1 = some w := by
  induction m with
  | nil => exact absurd h (List.not_mem_nil p)
  | cons e m ih =>
    obtain ⟨k₁, v₁⟩ := e
    by_cases hk : k₁ = p.1
    · exact ⟨v₁, by rw [alGet, if_pos hk]⟩
    · rcases List.mem_cons.1 h with rfl | h'
      · exact absurd rfl hk
      · rw [alGet, if_neg hk]
        exact ih h'

theorem alGet_mem {m : List (κ × JsVal)} {k : κ} {v : JsVal} (h : alGet m k = some v) :
    (k, v) ∈ m := by
  induction m with
  | nil => exact Option.noConfusion h
  | cons e m ih =>
    obtain ⟨k₁, v₁⟩ := e
    by_cases hk : k₁ = k
    · rw [alGet, if_pos hk] at h
      injection h with h'
      subst hk
      subst h'
      exact List.mem_cons_self _ _
    · rw [alGet, if_neg hk] at h
      exact List.mem_cons_of_mem _ (ih h)

theorem alGet_of_mem_nodup {m : List (κ × JsVal)} {k : κ} {v : JsVal}
    (hnd : (alKeys m).Nodup) (h : (k, v) ∈ m) : alGet m k = some v := by
  induction m with
  | nil => exact absurd h (List.not_mem_nil _)
  | cons e m ih =>
    obtain ⟨k₁, v₁⟩ := e
    rw [alKeys_cons] at hnd
    rcases List.mem_cons.1 h with he | h'
    · injection he with he₁ he₂
      subst he₁
      subst he₂
      rw [alGet, if_pos rfl]
    · have hk : k₁ ≠ k := by
        intro he
        subst he
        exact (List.nodup_cons.1 hnd).1 (List.mem_map.2 ⟨(k₁, v), h', rfl⟩)
      rw [alGet, if_neg hk]
      exact ih (List.nodup_cons.1 hnd).2 h'

theorem nodup_alKeys_alSet {m : List (κ × JsVal)} {k : κ} {v : JsVal}
    (h : (alKeys m).Nodup) : (alKeys (alSet m k v)).Nodup := by
  rw [alKeys_alSet]
  by_cases hm : k ∈ alKeys m
  · rw [if_pos hm]
    exact h
  · rw [if_neg hm]
    simp [List.nodup_append, h, hm]

theorem alSet_get?_of_key_ne {m : List (κ × JsVal)} {k : κ} {v : JsVal} :
    ∀ {j : Nat} {e : κ × JsVal}, m.get? j = some e → e.1 ≠ k →
      (alSet m k v).get? j = some e := by
  induction m with
  | nil => intro j e h _; rw [List.get?_nil] at h; exact Option.noConfusion h
  | cons p m ih =>
    intro j e h hne
    obtain ⟨k₁, v₁⟩ := p
    cases j with
    | zero =>
      rw [List.get?_cons_zero] at h
      injection h with h'
      subst h'
      rw [alSet, if_neg hne]
      rfl
    | succ j =>
      rw [List.get?_cons_succ] at h
      by_cases hk : k₁ = k
      · rw [alSet, if_pos hk, List.get?_cons_succ]
        exact h
      · rw [alSet, if_neg hk, List.get?_cons_succ]
        exact ih h hne

theorem alGet_foldl_of_forall_ne {k : κ} :
    ∀ (b a : List (κ × JsVal)), (∀ p ∈ b, p.1 ≠ k) →
      alGet (b.foldl (fun acc kv => alSet acc kv.1 kv.2) a) k = alGet a k
  | [], _, _ => rfl
  | p :: b, a, h => by
    rw [List.foldl_cons,
      alGet_foldl_of_forall_ne b _ (fun q hq => h q (List.mem_cons_of_mem _ hq))]
    exact alGet_alSet_ne a _ (Ne.symm (h p (List.mem_cons_self _ _)))

theorem alGet_foldl_of_mem_nodup {k : κ} {v : JsVal} :
    ∀ (b a : List (κ × JsVal)), (alKeys b).Nodup → (k, v) ∈ b →
      alGet (b.foldl (fun acc kv => alSet acc kv.1 kv.2) a) k = some v
  | [], _, _, hm => absurd hm (List.not_mem_nil _)
  | p :: b, a, hnd, hm => by
    rw [List.foldl_cons]
    rw [alKeys_cons] at hnd
    rcases List.mem_cons.1 hm with rfl | hm'
    · have hk : ∀ q ∈ b, q.1 ≠ (k, v).1 := by
        intro q hq he
        exact (List.nodup_cons.1 hnd).1 (List.mem_map.2 ⟨q, hq, he⟩)
      rw [alGet_foldl_of_forall_ne b _ hk]
      exact alGet_alSet_self a _ _
    · exact alGet_foldl_of_mem_nodup b _ (List.nodup_cons.1 hnd).2 hm'

end AssocLemmas

/-! ## Lemmas about the upsert merge -/

/-- `Map`-level aliases of the generic association-list lemmas. -/
theorem mkeys_mset_of_mem {m : List (MKey × JsVal)} {k : MKey} (v : JsVal)
    (h : k ∈ mkeys m) : mkeys (mset m k v) = mkeys m :=
  alKeys_alSet_of_mem v h

theorem mkeys_mset_of_not_mem {m : List (MKey × JsVal)} {k : MKey} (v : JsVal)
    (h : k ∉ mkeys m) : mkeys (mset m k v) = mkeys m ++ [k] :=
  alKeys_alSet_of_not_mem v h

theorem mget_mset_self (m : List (MKey × JsVal)) (k : MKey) (v : JsVal) :
    mget (mset m k v) k = some v :=
  alGet_alSet_self m k v

theorem mget_mset_ne (m : List (MKey × JsVal)) {k k' : MKey} (v : JsVal) (h : k' ≠ k) :
    mget (mset m k v) k' = mget m k' :=
  alGet_alSet_ne m v h

theorem mset_of_not_mem {m : List (MKey × JsVal)} {k : MKey} (v : JsVal)
    (h : k ∉ mkeys m) : mset m k v = m ++ [(k, v)] :=
  alSet_of_not_mem v h

theorem nodup_mkeys_mset {m : List (MKey × JsVal)} {k : MKey} {v : JsVal}
    (h : (mkeys m).Nodup) : (mkeys (mset m k v)).Nodup :=
  nodup_alKeys_alSet h

theorem mset_get?_of_key_ne {m : List (MKey × JsVal)} {k : MKey} {v : JsVal}
    {j : Nat} {e : MKey × JsVal} (h : m.get? j = some e) (hne : e.1 ≠ k) :
    (mset m k v).get? j = some e :=
  alSet_get?_of_key_ne h hne

/-- Keep the first occurrence of every key, in order — the key order
produced by repeated `Map.prototype.set`. -/
def firstOccur : List MKey → List MKey
  | [] => []
  | k :: ks => k :: firstOccur (ks.filter (fun x => decide (x ≠ k)))
termination_by l => l.length
decreasing_by
  simp only [List.length_cons]
  exact Nat.lt_succ_of_le (List.length_filter_le _ _)

/-- The `id` keys of the incoming batch, in input order. -/
def incIds (inc : List Obj) : List MKey := inc.map (fun i => getF i "id")

theorem mergeAll_cons (i : Obj) (inc : List Obj) (m : List (MKey × JsVal)) :
    mergeAll (i :: inc) m = mergeAll inc (mergeStep m i) := rfl

theorem incIds_cons (i : Obj) (inc : List Obj) :
    incIds (i :: inc) = getF i "id" :: incIds inc := rfl

/-- Key evolution of the whole `forEach` loop: the keys already present
keep their positions and the fresh incoming ids are appended in order of
first occurrence. -/
theorem mkeys_mergeAll :
    ∀ (inc : List Obj) (m : List (MKey × JsVal)),
      mkeys (mergeAll inc m)
        = mkeys m ++ firstOccur ((incIds inc).filter (fun x => decide (x ∉ mkeys m)))
  | [], m => by
    simp [mergeAll, incIds, firstOccur]
  | i :: inc, m => by
    rw [mergeAll_cons, mkeys_mergeAll inc (mergeStep m i)]
    by_cases hk : getF i "id" ∈ mkeys m
    · rw [show mkeys (mergeStep m i) = mkeys m from mkeys_mset_of_mem _ hk]
      have hf : (incIds (i :: inc)).filter (fun x => decide (x ∉ mkeys m))
          = (incIds inc).filter (fun x => decide (x ∉ mkeys m)) := by
        rw [incIds_cons, List.filter_cons]
        simp [hk]
      rw [hf]
    · rw [show mkeys (mergeStep m i) = mkeys m ++ [getF i "id"] from
        mkeys_mset_of_not_mem _ hk]
      have hf : (incIds (i :: inc)).filter (fun x => decide (x ∉ mkeys m))
          = getF i "id" :: (incIds inc).filter (fun x => decide (x ∉ mkeys m)) := by
        rw [incIds_cons, List.filter_cons]
        simp [hk]
      rw [hf, firstOccur, List.append_assoc]
      have hmerge : (incIds inc).filter (fun x => decide (x ∉ mkeys m ++ [getF i "id"]))
          = ((incIds inc).filter (fun x => decide (x ∉ mkeys m))).filter
              (fun x => decide (x ≠ getF i "id")) := by
        rw [List.filter_filter]
        apply List.filter_congr
        intro x _
        by_cases h₁ : x ∈ mkeys m <;> by_cases h₂ : x = getF i "id" <;>
          simp [List.mem_append, h₁, h₂]
      rw [hmerge]
      rfl

/-- A stored entry whose key never occurs in the incoming batch is left
untouched at its position. -/
theorem mergeAll_get?_of_not_mem :
    ∀ (inc : List Obj) (m : List (MKey × JsVal)) {j : Nat} {e : MKey × JsVal},
      m.get? j = some e → e.1 ∉ incIds inc → (mergeAll inc m).get? j = some e
  | [], _, _, _, h, _ => h
  | i :: inc, m, j, e, h, hni => by
    rw [mergeAll_cons]
    have hne : e.1 ≠ getF i "id" := by
      intro he
      exact hni (by rw [incIds_cons, he]; exact List.mem_cons_self _ _)
    exact mergeAll_get?_of_not_mem inc _ (mset_get?_of_key_ne h hne)
      (fun hm => hni (by rw [incIds_cons]; exact List.mem_cons_of_mem _ hm))

/-- A key that never occurs in the incoming batch keeps its mapped
value. -/
theorem mget_mergeAll_of_not_mem :
    ∀ (inc : List Obj) (m : List (MKey × JsVal)) {k : MKey},
      k ∉ incIds inc → mget (mergeAll inc m) k = mget m k
  | [], _, _, _ => rfl
  | i :: inc, m, k, h => by
    rw [mergeAll_cons,
      mget_mergeAll_of_not_mem inc _
        (fun hm => h (by rw [incIds_cons]; exact List.mem_cons_of_mem _ hm))]
    exact mget_mset_ne m _
      (fun he => h (by rw [incIds_cons, he]; exact List.mem_cons_self _ _))

theorem mget_mergeStep_self (m : List (MKey × JsVal)) (i : Obj) :
    mget (mergeStep m i) (getF i "id")
      = some (.obj (spreadMergeJs (mget m (getF i "id")) i)) :=
  mget_mset_self m _ _

/-- Field lookup in a spread-merge when the incoming item carries the
field (and has no duplicate keys): the incoming value wins. -/
theorem getF_spreadMergeJs_of_mem {i : Obj} {k : String} {v : JsVal}
    (hnd : (alKeys i).Nodup) (hm : (k, v) ∈ i) (old : Option JsVal) :
    getF (spreadMergeJs old i) k = some v :=
  alGet_foldl_of_mem_nodup i (spreadBase old) hnd hm

/-- Field lookup in a spread-merge when the incoming item lacks the
field: the old record's value survives. -/
theorem getF_spreadMergeJs_of_none {i : Obj} {k : String}
    (hnone : getF i k = none) (old : Option JsVal) :
    getF (spreadMergeJs old i) k = getF (spreadBase old) k := by
  apply alGet_foldl_of_forall_ne
  intro p hp he
  obtain ⟨w, hw⟩ := alGet_isSome_of_mem hp
  rw [he] at hw
  rw [show getF i k = alGet i k from rfl] at hnone
  rw [hnone] at hw
  exact Option.noConfusion hw

/-- Every map entry built by the handler satisfies: the value's `id`
field is the entry's key. -/
def idAligned (m : List (MKey × JsVal)) : Prop := ∀ e ∈ m, exId e.2 = e.1

theorem idAligned_mset {m : List (MKey × JsVal)} {k : MKey} {v : JsVal}
    (h : idAligned m) (hv : exId v = k) : idAligned (mset m k v) := by
  induction m with
  | nil =>
    intro e he
    rcases List.mem_cons.1 he with rfl | he'
    · exact hv
    · exact absurd he' (List.not_mem_nil e)
  | cons p m ih =>
    obtain ⟨k₁, v₁⟩ := p
    intro e he
    rw [show mset ((k₁, v₁) :: m) k v
        = if k₁ = k then (k₁, v) :: m else (k₁, v₁) :: mset m k v from rfl] at he
    by_cases hk : k₁ = k
    · rw [if_pos hk] at he
      rcases List.mem_cons.1 he with rfl | he'
      · rw [show ((k₁, v) : MKey × JsVal).2 = v from rfl, hv, hk]
      · exact h e (List.mem_cons_of_mem _ he')
    · rw [if_neg hk] at he
      rcases List.mem_cons.1 he with rfl | he'
      · exact h _ (List.mem_cons_self _ _)
      · exact ih (fun q hq => h q (List.mem_cons_of_mem _ hq)) e he'

theorem idAligned_foldl_mset :
    ∀ (es m : List (MKey × JsVal)), idAligned m → (∀ e ∈ es, exId e.2 = e.1) →
      idAligned (es.foldl (fun acc kv => mset acc kv.1 kv.2) m)
  | [], m, hm, _ => hm
  | e :: es, m, hm, hes => by
    rw [List.foldl_cons]
    exact idAligned_foldl_mset es _ (idAligned_mset hm (hes e (List.mem_cons_self _ _)))
      (fun q hq => hes q (List.mem_cons_of_mem _ hq))

theorem idAligned_buildMap {es : List (MKey × JsVal)} (hes : ∀ e ∈ es, exId e.2 = e.1) :
    idAligned (buildMap es) :=
  idAligned_foldl_mset es [] (fun e he => absurd he (List.not_mem_nil e)) hes

theorem idAligned_mergeStep {m : List (MKey × JsVal)} {i : Obj}
    (h : idAligned m) (hnd : (alKeys i).Nodup) (hid : ∃ v₀, getF i "id" = some v₀) :
    idAligned (mergeStep m i) := by
  obtain ⟨v₀, hv₀⟩ := hid
  apply idAligned_mset h
  show getF (spreadMergeJs (mget m (getF i "id")) i) "id" = getF i "id"
  rw [hv₀]
  exact getF_spreadMergeJs_of_mem hnd (alGet_mem hv₀) _

theorem idAligned_mergeAll :
    ∀ (inc : List Obj) (m : List (MKey × JsVal)), idAligned m →
      (∀ i ∈ inc, (alKeys i).Nodup ∧ ∃ v₀, getF i "id" = some v₀) →
      idAligned (mergeAll inc m)
  | [], _, hm, _ => hm
  | i :: inc, m, hm, hinc => by
    rw [mergeAll_cons]
    exact idAligned_mergeAll inc _
      (idAligned_mergeStep hm (hinc i (List.mem_cons_self _ _)).1
        (hinc i (List.mem_cons_self _ _)).2)
      (fun q hq => hinc q (List.mem_cons_of_mem _ hq))

theorem mvalues_map_exId {m : List (MKey × JsVal)} (h : idAligned m) :
    (mvalues m).map exId = mkeys m := by
  induction m with
  | nil => rfl
  | cons e m ih =>
    rw [show mvalues (e :: m) = e.2 :: mvalues m from rfl, List.map_cons,
      h e (List.mem_cons_self _ _), show mkeys (e :: m) = e.1 :: mkeys m from rfl]
    rw [ih (fun q hq => h q (List.mem_cons_of_mem _ hq))]

theorem nodup_mkeys_foldl_mset :
    ∀ (es m : List (MKey × JsVal)), (mkeys m).Nodup →
      (mkeys (es.foldl (fun acc kv => mset acc kv.1 kv.2) m)).Nodup
  | [], _, hm => hm
  | e :: es, m, hm => by
    rw [List.foldl_cons]
    exact nodup_mkeys_foldl_mset es _ (nodup_mkeys_mset hm)

theorem nodup_mkeys_buildMap (es : List (MKey × JsVal)) : (mkeys (buildMap es)).Nodup :=
  nodup_mkeys_foldl_mset es [] List.nodup_nil

theorem nodup_mkeys_mergeAll :
    ∀ (inc : List Obj) (m : List (MKey × JsVal)), (mkeys m).Nodup →
      (mkeys (mergeAll inc m)).Nodup
  | [], _, hm => hm
  | i :: inc, m, hm => by
    rw [mergeAll_cons]
    exact nodup_mkeys_mergeAll inc _ (nodup_mkeys_mset hm)

/-- Inserting entries with pairwise-fresh keys into a map that does not
contain them is plain concatenation — so `new Map(entries)` over
distinct ids is the entry list itself. -/
theorem foldl_mset_append :
    ∀ (es m : List (MKey × JsVal)), (mkeys m ++ es.map Prod.fst).Nodup →
      es.foldl (fun acc kv => mset acc kv.1 kv.2) m = m ++ es
  | [], m, _ => by simp
  | (k, v) :: es, m, h => by
    rw [List.foldl_cons]
    have hk : k ∉ mkeys m := by
      intro hkm
      exact (List.disjoint_of_nodup_append h) hkm (List.mem_cons_self _ _)
    rw [mset_of_not_mem v hk]
    have h' : (mkeys (m ++ [(k, v)]) ++ es.map Prod.fst).Nodup := by
      have hmk : mkeys (m ++ [(k, v)]) = mkeys m ++ [k] := by
        simp [mkeys, alKeys]
      rw [hmk, List.append_assoc]
      simpa using h
    rw [foldl_mset_append es (m ++ [(k, v)]) h', List.append_assoc]
    rfl

theorem buildMap_of_nodup {es : List (MKey × JsVal)} (h : (es.map Prod.fst).Nodup) :
    buildMap es = es := by
  have := foldl_mset_append es [] (by simpa using h)
  simpa [buildMap] using this

/-! ## Facts about normalization outputs and the stored entries -/

/-- A successful `entriesOf` is exactly `[i.id, i]` per record. -/
theorem entriesOf_ok_eq :
    ∀ {ex : List JsVal} {es : List (MKey × JsVal)}, entriesOf ex = .ok es →
      es = ex.map (fun v => (exId v, v)) := by
  intro ex
  induction ex with
  | nil =>
    intro es h
    cases h
    rfl
  | cons v vs ih =>
    intro es h
    rw [entriesOf] at h
    by_cases hv : v = JsVal.null
    · rw [if_pos hv] at h
      exact Except.noConfusion h
    · rw [if_neg hv] at h
      cases he : entriesOf vs with
      | error u => rw [he] at h; exact Except.noConfusion h
      | ok rest =>
        rw [he] at h
        injection h with h'
        subst h'
        rw [List.map_cons, ih he]

/-- A well-formed JS value: a JSON-parsed object never carries duplicate
field names. -/
def WFItem : JsVal → Bool
  | .obj f => decide ((alKeys f).Nodup)
  | _ => true

/-- Every normalized item is the spread of its raw item with the `id`
field set to the normalized id string. -/
theorem normItem_shape {raw : JsVal} {o : Obj} (h : normItem raw = .ok o) :
    ∃ s, o = setField (spreadFields raw) "id" (.str s) := by
  unfold normItem at h
  cases hgp : getProp raw "id" with
  | error u => rw [hgp] at h; exact Except.noConfusion h
  | ok idv =>
    simp only [hgp] at h
    by_cases ht : truthyOpt idv = true
    · rw [if_pos ht] at h
      cases idv with
      | none => simp [truthyOpt] at ht
      | some w =>
        cases w with
        | str s =>
          injection h with h'
          exact ⟨normalizeId s, h'.symm⟩
        | num n => exact Except.noConfusion h
        | bool b => exact Except.noConfusion h
        | null => exact Except.noConfusion h
        | arr xs => exact Except.noConfusion h
        | obj f => exact Except.noConfusion h
    · rw [if_neg ht] at h
      cases hd : deriveId raw with
      | error u => rw [hd] at h; exact Except.noConfusion h
      | ok nid =>
        rw [hd] at h
        injection h with h'
        exact ⟨nid, h'.symm⟩

/-- Every normalized item carries a string `id` field. -/
theorem normItem_getF_id {raw : JsVal} {o : Obj} (h : normItem raw = .ok o) :
    ∃ s, getF o "id" = some (.str s) := by
  obtain ⟨s, rfl⟩ := normItem_shape h
  exact ⟨s, alGet_alSet_self _ _ _⟩

/-- Normalization preserves key uniqueness of well-formed items. -/
theorem normItem_nodupKeys {raw : JsVal} {o : Obj} (h : normItem raw = .ok o)
    (hwf : WFItem raw = true) : (alKeys o).Nodup := by
  obtain ⟨s, rfl⟩ := normItem_shape h
  apply nodup_alKeys_alSet
  cases raw with
  | obj f => simpa [WFItem] using hwf
  | str v => exact List.nodup_nil
  | num v => exact List.nodup_nil
  | bool v => exact List.nodup_nil
  | null => exact List.nodup_nil
  | arr v => exact List.nodup_nil

/-- Every item of a successfully normalized batch comes from some raw
item. -/
theorem normalizeAll_mem :
    ∀ {raws : List JsVal} {inc : List Obj}, normalizeAll raws = .ok inc →
      ∀ i ∈ inc, ∃ raw ∈ raws, normItem raw = .ok i := by
  intro raws
  induction raws with
  | nil =>
    intro inc h i hi
    cases h
    exact absurd hi (List.not_mem_nil i)
  | cons rw₀ rs ih =>
    intro inc h i hi
    rw [normalizeAll] at h
    cases hn : normItem rw₀ with
    | error u => rw [hn] at h; exact Except.noConfusion h
    | ok o =>
      rw [hn] at h
      cases hns : normalizeAll rs with
      | error u => rw [hns] at h; exact Except.noConfusion h
      | ok os =>
        rw [hns] at h
        injection h with h'
        subst h'
        rcases List.mem_cons.1 hi with rfl | hi'
        · exact ⟨rw₀, List.mem_cons_self _ _, hn⟩
        · obtain ⟨raw, hraw, hok⟩ := ih hns i hi'
          exact ⟨raw, List.mem_cons_of_mem _ hraw, hok⟩

/-- Every item of a normalized well-formed batch has unique keys and a
string `id`. -/
theorem normalizeAll_good {raws : List JsVal} {inc : List Obj}
    (h : normalizeAll raws = .ok inc) (hwf : ∀ v ∈ raws, WFItem v = true) :
    ∀ i ∈ inc, (alKeys i).Nodup ∧ ∃ v₀, getF i "id" = some v₀ := by
  intro i hi
  obtain ⟨raw, hraw, hni⟩ := normalizeAll_mem h i hi
  obtain ⟨s, hs⟩ := normItem_getF_id hni
  exact ⟨normItem_nodupKeys hni (hwf raw hraw), ⟨.str s, hs⟩⟩

/-! ## Inversion of a successful `handlePost` -/

theorem mergePipeline_ok {stored : ReadOutcome} {inc : List Obj} {M : List JsVal}
    (h : mergePipeline stored inc = .ok M) :
    ∃ ex es, existingVal stored = .arr ex ∧ entriesOf ex = .ok es ∧
      M = mvalues (mergeAll inc (buildMap es)) := by
  unfold mergePipeline at h
  cases hv : existingVal stored with
  | arr l =>
    simp only [hv] at h
    cases hes : entriesOf l with
    | error u => simp only [hes] at h; exact Except.noConfusion h
    | ok es =>
      simp only [hes] at h
      injection h with h'
      exact ⟨l, es, rfl, hes, h'.symm⟩
  | str s => simp only [hv] at h; exact Except.noConfusion h
  | num n => simp only [hv] at h; exact Except.noConfusion h
  | bool b => simp only [hv] at h; exact Except.noConfusion h
  | null => simp only [hv] at h; exact Except.noConfusion h
  | obj f => simp only [hv] at h; exact Except.noConfusion h

/-- Inverting a `handlePost` run that called `store.set`: auth
succeeded, the body had an accepted shape, normalization succeeded,
validation passed, and the written collection is the merge result. -/
theorem handlePost_write_inversion {cfg : Bool} {hdr : Option String}
    {jwt : Except Unit Obj} {payload : JsVal} {stored : ReadOutcome} {w : Bool}
    {r : Response} {M : List JsVal}
    (hpost : handlePost cfg hdr jwt (.ok payload) stored w = .ok (r, some M)) :
    ∃ claims raws inc, verifyAuth cfg hdr jwt "inventory:write" = .ok claims ∧
      extractIncoming payload = .ok (some raws) ∧
      normalizeAll raws = .ok inc ∧
      collectErrors inc = [] ∧
      mergePipeline stored inc = .ok M ∧
      (w = true → r = resp 200 (.arr M)) := by
  unfold handlePost at hpost
  cases hauth : verifyAuth cfg hdr jwt "inventory:write" with
  | error e =>
    rw [hauth] at hpost
    injection hpost with h₁
    injection h₁ with h₂ h₃
    exact Option.noConfusion h₃
  | ok claims =>
    simp only [hauth] at hpost
    unfold handlePostParsed at hpost
    cases hext : extractIncoming payload with
    | error u => simp only [hext] at hpost; exact Except.noConfusion hpost
    | ok oraws =>
      cases oraws with
      | none =>
        simp only [hext] at hpost
        injection hpost with h₁
        injection h₁ with h₂ h₃
        exact Option.noConfusion h₃
      | some raws =>
        simp only [hext] at hpost
        unfold handlePostItems at hpost
        cases hnorm : normalizeAll raws with
        | error u => simp only [hnorm] at hpost; exact Except.noConfusion hpost
        | ok inc =>
          simp only [hnorm] at hpost
          by_cases herr : collectErrors inc = []
          · rw [if_neg (not_not_intro herr)] at hpost
            unfold handlePostValidated at hpost
            cases hmp : mergePipeline stored inc with
            | error u => simp only [hmp] at hpost; exact Except.noConfusion hpost
            | ok merged =>
              simp only [hmp] at hpost
              cases w with
              | true =>
                rw [if_pos rfl] at hpost
                injection hpost with h₁
                injection h₁ with h₂ h₃
                injection h₃ with h₄
                subst h₄
                exact ⟨claims, raws, inc, rfl, rfl, hnorm, herr, hmp,
                  fun _ => h₂.symm⟩
              | false =>
                rw [if_neg (by simp)] at hpost
                injection hpost with h₁
                injection h₁ with h₂ h₃
                injection h₃ with h₄
                subst h₄
                exact ⟨claims, raws, inc, rfl, rfl, hnorm, herr, hmp,
                  fun hw => nomatch hw⟩
          · rw [if_pos herr] at hpost
            injection hpost with h₁
            injection h₁ with h₂ h₃
            exact Option.noConfusion h₃

/-! ## C5: persisted ids are pairwise distinct -/

/-- C5: every collection the POST handler persists has pairwise-distinct
`id` values, even when the incoming batch or the stored collection
contains duplicate ids — duplicates are merged by key, and the request
is never rejected for them.  (Items are assumed well-formed as JS
values: no duplicate field names inside one object.) -/
theorem handlePost_persisted_ids_nodup (cfg : Bool) (hdr : Option String)
    (jwt : Except Unit Obj) (payload : JsVal) (stored : ReadOutcome) (w : Bool)
    (r : Response) (M : List JsVal)
    (hWF : ∀ raws, extractIncoming payload = .ok (some raws) → ∀ v ∈ raws, WFItem v = true)
    (hpost : handlePost cfg hdr jwt (.ok payload) stored w = .ok (r, some M)) :
    (M.map exId).Nodup := by
  obtain ⟨claims, raws, inc, hauth, hext, hnorm, herr, hmp, hr⟩ :=
    handlePost_write_inversion hpost
  obtain ⟨ex, es, hev, hes, hM⟩ := mergePipeline_ok hmp
  subst hM
  have hget := entriesOf_ok_eq hes
  have hal : ∀ e ∈ es, exId e.2 = e.1 := by
    subst hget
    intro e he
    obtain ⟨v, _, rfl⟩ := List.mem_map.1 he
    rfl
  have hgood := normalizeAll_good hnorm (hWF raws hext)
  have hfin : idAligned (mergeAll inc (buildMap es)) :=
    idAligned_mergeAll inc _ (idAligned_buildMap hal) hgood
  rw [mvalues_map_exId hfin]
  exact nodup_mkeys_mergeAll inc _ (nodup_mkeys_buildMap es)

/-- Witness for C5: the stored collection carries the id `a` twice and
the incoming batch re-posts `A` (normalizing to `a`) plus a fresh `b`;
the persisted collection has distinct ids. -/
theorem handlePost_persisted_ids_nodup_witness :
    handlePost true (some "Bearer token") (.ok [("scope", JsVal.str "inventory:write")])
        (.ok (.arr [.obj [("id", .str "A"), ("make", .str "P"), ("model", .str "Z")],
                    .obj [("id", .str "b"), ("make", .str "Q"), ("model", .str "W")]]))
        (.doc (.arr [.obj [("id", .str "a"), ("make", .str "M"), ("model", .str "X")],
                     .obj [("id", .str "a"), ("make", .str "N"), ("model", .str "Y")]])) true
      = .ok (resp 200 (.arr
          [.obj [("id", .str "a"), ("make", .str "P"), ("model", .str "Z")],
           .obj [("id", .str "b"), ("make", .str "Q"), ("model", .str "W")]]),
        some [.obj [("id", .str "a"), ("make", .str "P"), ("model", .str "Z")],
              .obj [("id", .str "b"), ("make", .str "Q"), ("model", .str "W")]]) ∧
    (([JsVal.obj [("id", .str "a"), ("make", .str "P"), ("model", .str "Z")],
       JsVal.obj [("id", .str "b"), ("make", .str "Q"), ("model", .str "W")]].map exId).Nodup) := by
  refine ⟨rfl, ?_⟩
  exact handlePost_persisted_ids_nodup true (some "Bearer token")
    (.ok [("scope", JsVal.str "inventory:write")])
    (.arr [.obj [("id", .str "A"), ("make", .str "P"), ("model", .str "Z")],
           .obj [("id", .str "b"), ("make", .str "Q"), ("model", .str "W")]])
    (.doc (.arr [.obj [("id", .str "a"), ("make", .str "M"), ("model", .str "X")],
                 .obj [("id", .str "a"), ("make", .str "N"), ("model", .str "Y")]])) true
    (resp 200 (.arr
      [.obj [("id", .str "a"), ("make", .str "P"), ("model", .str "Z")],
       .obj [("id", .str "b"), ("make", .str "Q"), ("model", .str "W")]]))
    [.obj [("id", .str "a"), ("make", .str "P"), ("model", .str "Z")],
     .obj [("id", .str "b"), ("make", .str "Q"), ("model", .str "W")]]
    (by
      intro raws h
      cases h
      decide) rfl

/-! ## C4: order of the persisted collection -/

/-- C4: on a successful authenticated POST against a stored array with
distinct ids, the persisted and returned collection keys are the stored
ids in their original order followed by the fresh incoming ids in input
order of first occurrence, and every stored record whose id is not in
the batch survives unchanged at its original position. -/
theorem handlePost_order_preserved (cfg : Bool) (hdr : Option String)
    (jwt : Except Unit Obj) (payload : JsVal) (ex : List JsVal) (raws : List JsVal)
    (inc : List Obj) (r : Response) (M : List JsVal)
    (hWF : ∀ raws', extractIncoming payload = .ok (some raws') →
      ∀ v ∈ raws', WFItem v = true)
    (hnodup : (ex.map exId).Nodup)
    (hext : extractIncoming payload = .ok (some raws))
    (hnorm : normalizeAll raws = .ok inc)
    (hpost : handlePost cfg hdr jwt (.ok payload) (.doc (.arr ex)) true = .ok (r, some M)) :
    r = resp 200 (.arr M) ∧
    M.map exId = ex.map exId
      ++ firstOccur ((incIds inc).filter (fun x => decide (x ∉ ex.map exId))) ∧
    (∀ j v, ex.get? j = some v → exId v ∉ incIds inc → M.get? j = some v) := by
  obtain ⟨claims, raws', inc', hauth, hext', hnorm', herr, hmp, hr⟩ :=
    handlePost_write_inversion hpost
  rw [hext] at hext'
  injection hext' with h₁
  injection h₁ with h₂
  subst h₂
  rw [hnorm] at hnorm'
  injection hnorm' with h₃
  subst h₃
  obtain ⟨ex', es, hev, hes, hM⟩ := mergePipeline_ok hmp
  simp only [existingVal] at hev
  injection hev with h₄
  subst h₄
  have hes_eq := entriesOf_ok_eq hes
  have hkeys : mkeys es = ex.map exId := by
    subst hes_eq
    rw [show mkeys (ex.map fun v => (exId v, v))
        = (ex.map fun v => (exId v, v)).map Prod.fst from rfl, List.map_map]
    rfl
  have hnd_es : (es.map Prod.fst).Nodup := by
    rw [show es.map Prod.fst = mkeys es from rfl, hkeys]
    exact hnodup
  have hbm : buildMap es = es := buildMap_of_nodup hnd_es
  have hal : ∀ e ∈ es, exId e.2 = e.1 := by
    subst hes_eq
    intro e he
    obtain ⟨v, _, rfl⟩ := List.mem_map.1 he
    rfl
  have hgood := normalizeAll_good hnorm (hWF raws hext)
  have hfin : idAligned (mergeAll inc (buildMap es)) :=
    idAligned_mergeAll inc _ (idAligned_buildMap hal) hgood
  subst hM
  refine ⟨hr rfl, ?_, ?_⟩
  · calc (mvalues (mergeAll inc (buildMap es))).map exId
        = mkeys (mergeAll inc (buildMap es)) := mvalues_map_exId hfin
      _ = mkeys (mergeAll inc es) := by rw [hbm]
      _ = mkeys es
          ++ firstOccur ((incIds inc).filter (fun x => decide (x ∉ mkeys es))) :=
        mkeys_mergeAll inc es
      _ = ex.map exId
          ++ firstOccur ((incIds inc).filter (fun x => decide (x ∉ ex.map exId))) := by
        simp only [hkeys]
  · intro j v hj hni
    have hesj : es.get? j = some (exId v, v) := by
      subst hes_eq
      rw [List.get?_map, hj]
      rfl
    have h1 : (mergeAll inc es).get? j = some (exId v, v) :=
      mergeAll_get?_of_not_mem inc es hesj hni
    rw [hbm, show mvalues (mergeAll inc es)
        = (mergeAll inc es).map Prod.snd from rfl, List.get?_map, h1]
    rfl

/-- Witness for C4: updating stored `a` and appending `b` keeps the
stored order `a, c` and appends `b`; the untouched `c` is returned
verbatim at its position. -/
theorem handlePost_order_preserved_witness :
    resp 200 (.arr
      [.obj [("id", .str "a"), ("make", .str "Ford"), ("model", .str "X"),
             ("year", .num 1969), ("status", .str "Sold")],
       .obj [("id", .str "c"), ("make", .str "K"), ("model", .str "Y")],
       .obj [("id", .str "b"), ("make", .str "Q"), ("model", .str "W")]])
      = resp 200 (.arr
        [.obj [("id", .str "a"), ("make", .str "Ford"), ("model", .str "X"),
               ("year", .num 1969), ("status", .str "Sold")],
         .obj [("id", .str "c"), ("make", .str "K"), ("model", .str "Y")],
         .obj [("id", .str "b"), ("make", .str "Q"), ("model", .str "W")]]) ∧
    ([JsVal.obj [("id", .str "a"), ("make", .str "Ford"), ("model", .str "X"),
                 ("year", .num 1969), ("status", .str "Sold")],
      JsVal.obj [("id", .str "c"), ("make", .str "K"), ("model", .str "Y")],
      JsVal.obj [("id", .str "b"), ("make", .str "Q"), ("model", .str "W")]].map exId
      = [JsVal.obj [("id", .str "a"), ("make", .str "Ford"), ("model", .str "X"),
                    ("year", .num 1969), ("status", .str "Available")],
         JsVal.obj [("id", .str "c"), ("make", .str "K"), ("model", .str "Y")]].map exId
        ++ firstOccur ((incIds
            [[("id", .str "a"), ("make", .str "Ford"), ("model", .str "X"),
              ("status", .str "Sold")],
             [("id", .str "b"), ("make", .str "Q"), ("model", .str "W")]]).filter
          (fun x => decide (x ∉
            [JsVal.obj [("id", .str "a"), ("make", .str "Ford"), ("model", .str "X"),
                        ("year", .num 1969), ("status", .str "Available")],
             JsVal.obj [("id", .str "c"), ("make", .str "K"), ("model", .str "Y")]].map exId)))) ∧
    (∀ j v,
      [JsVal.obj [("id", .str "a"), ("make", .str "Ford"), ("model", .str "X"),
                  ("year", .num 1969), ("status", .str "Available")],
       JsVal.obj [("id", .str "c"), ("make", .str "K"), ("model", .str "Y")]].get? j = some v →
      exId v ∉ incIds
        [[("id", .str "a"), ("make", .str "Ford"), ("model", .str "X"),
          ("status", .str "Sold")],
         [("id", .str "b"), ("make", .str "Q"), ("model", .str "W")]] →
      [JsVal.obj [("id", .str "a"), ("make", .str "Ford"), ("model", .str "X"),
                  ("year", .num 1969), ("status", .str "Sold")],
       JsVal.obj [("id", .str "c"), ("make", .str "K"), ("model", .str "Y")],
       JsVal.obj [("id", .str "b"), ("make", .str "Q"), ("model", .str "W")]].get? j = some v) :=
  handlePost_order_preserved true (some "Bearer token")
    (.ok [("scope", JsVal.str "inventory:write")])
    (.arr [.obj [("id", .str "A"), ("make", .str "Ford"), ("model", .str "X"),
                 ("status", .str "Sold")],
           .obj [("id", .str "b"), ("make", .str "Q"), ("model", .str "W")]])
    [.obj [("id", .str "a"), ("make", .str "Ford"), ("model", .str "X"),
           ("year", .num 1969), ("status", .str "Available")],
     .obj [("id", .str "c"), ("make", .str "K"), ("model", .str "Y")]]
    [.obj [("id", .str "A"), ("make", .str "Ford"), ("model", .str "X"),
           ("status", .str "Sold")],
     .obj [("id", .str "b"), ("make", .str "Q"), ("model", .str "W")]]
    [[("id", .str "a"), ("make", .str "Ford"), ("model", .str "X"),
      ("status", .str "Sold")],
     [("id", .str "b"), ("make", .str "Q"), ("model", .str "W")]]
    (resp 200 (.arr
      [.obj [("id", .str "a"), ("make", .str "Ford"), ("model", .str "X"),
             ("year", .num 1969), ("status", .str "Sold")],
       .obj [("id", .str "c"), ("make", .str "K"), ("model", .str "Y")],
       .obj [("id", .str "b"), ("make", .str "Q"), ("model", .str "W")]]))
    [.obj [("id", .str "a"), ("make", .str "Ford"), ("model", .str "X"),
           ("year", .num 1969), ("status", .str "Sold")],
     .obj [("id", .str "c"), ("make", .str "K"), ("model", .str "Y")],
     .obj [("id", .str "b"), ("make", .str "Q"), ("model", .str "W")]]
    (by
      intro raws' h
      cases h
      decide)
    (by decide) rfl rfl rfl

/-! ## C3: the merge is field-level -/

theorem mergeAll_append (pre post : List Obj) (i : Obj) (m : List (MKey × JsVal)) :
    mergeAll (pre ++ i :: post) m = mergeAll post (mergeStep (mergeAll pre m) i) := by
  unfold mergeAll
  rw [List.foldl_append]
  rfl

theorem mem_mvalues_of_mget {m : List (MKey × JsVal)} {k : MKey} {v : JsVal}
    (h : mget m k = some v) : v ∈ mvalues m :=
  List.mem_map.2 ⟨(k, v), alGet_mem h, rfl⟩

/-- C3: for a successful authenticated POST whose (normalized) batch
contains exactly one item with a given id that also identifies a stored
record, the persisted collection carries the shallow field-level merge
of the stored record under the incoming item: every field of the
incoming item keeps the incoming value, and every field present only in
the stored record keeps its stored value. -/
theorem handlePost_field_merge (cfg : Bool) (hdr : Option String)
    (jwt : Except Unit Obj) (payload : JsVal) (ex : List JsVal) (raws : List JsVal)
    (pre post : List Obj) (i : Obj) (r0f : Obj) (idv : JsVal)
    (r : Response) (M : List JsVal) (w : Bool)
    (hWF : ∀ raws', extractIncoming payload = .ok (some raws') →
      ∀ v ∈ raws', WFItem v = true)
    (hnodup : (ex.map exId).Nodup)
    (hext : extractIncoming payload = .ok (some raws))
    (hnorm : normalizeAll raws = .ok (pre ++ i :: post))
    (hr0 : JsVal.obj r0f ∈ ex)
    (hr0id : getF r0f "id" = some idv)
    (hiid : getF i "id" = some idv)
    (hpre : some idv ∉ incIds pre)
    (hpost2 : some idv ∉ incIds post)
    (hrun : handlePost cfg hdr jwt (.ok payload) (.doc (.arr ex)) w = .ok (r, some M)) :
    JsVal.obj (spreadMergeJs (some (.obj r0f)) i) ∈ M ∧
    (∀ k v, getF i k = some v → getF (spreadMergeJs (some (.obj r0f)) i) k = some v) ∧
    (∀ k, getF i k = none → getF (spreadMergeJs (some (.obj r0f)) i) k = getF r0f k) := by
  obtain ⟨claims, raws', inc', hauth, hext', hnorm', herr, hmp, hr⟩ :=
    handlePost_write_inversion hrun
  rw [hext] at hext'
  injection hext' with h₁
  injection h₁ with h₂
  subst h₂
  rw [hnorm] at hnorm'
  injection hnorm' with h₃
  subst h₃
  obtain ⟨ex', es, hev, hes, hM⟩ := mergePipeline_ok hmp
  simp only [existingVal] at hev
  injection hev with h₄
  subst h₄
  have hes_eq := entriesOf_ok_eq hes
  have hkeys : mkeys es = ex.map exId := by
    subst hes_eq
    rw [show mkeys (ex.map fun v => (exId v, v))
        = (ex.map fun v => (exId v, v)).map Prod.fst from rfl, List.map_map]
    rfl
  have hnd_es : (es.map Prod.fst).Nodup := by
    rw [show es.map Prod.fst = mkeys es from rfl, hkeys]
    exact hnodup
  have hbm : buildMap es = es := buildMap_of_nodup hnd_es
  have hgood : ∀ q ∈ (pre ++ i :: post : List Obj),
      (alKeys q).Nodup ∧ ∃ v₀, getF q "id" = some v₀ :=
    normalizeAll_good hnorm (hWF raws hext)
  have hindk : (alKeys i).Nodup := (hgood i (by simp)).1
  have hmem_es : (some idv, JsVal.obj r0f) ∈ es := by
    subst hes_eq
    exact List.mem_map.2 ⟨.obj r0f, hr0,
      by rw [show exId (JsVal.obj r0f) = some idv from hr0id]⟩
  have hget_es : mget es (some idv) = some (.obj r0f) :=
    alGet_of_mem_nodup hnd_es hmem_es
  have hm₁ : mget (mergeAll pre es) (some idv) = some (.obj r0f) := by
    rw [mget_mergeAll_of_not_mem pre es hpre, hget_es]
  have hstep2 : mget (mergeStep (mergeAll pre es) i) (some idv)
      = some (.obj (spreadMergeJs (some (.obj r0f)) i)) := by
    have hms := mget_mergeStep_self (mergeAll pre es) i
    rw [hiid, hm₁] at hms
    exact hms
  have hfinal : mget (mergeAll post (mergeStep (mergeAll pre es) i)) (some idv)
      = some (.obj (spreadMergeJs (some (.obj r0f)) i)) := by
    rw [mget_mergeAll_of_not_mem post _ hpost2, hstep2]
  subst hM
  refine ⟨?_, ?_, ?_⟩
  · rw [hbm, mergeAll_append]
    exact mem_mvalues_of_mget hfinal
  · intro k v hkv
    exact getF_spreadMergeJs_of_mem hindk (alGet_mem hkv) _
  · intro k hk
    exact getF_spreadMergeJs_of_none hk _

/-- Witness for C3: posting a `status` update for the stored `a-1`-style
record merges field-by-field — `status` takes the incoming value and
`year` survives from the stored record. -/
theorem handlePost_field_merge_witness :
    JsVal.obj (spreadMergeJs
        (some (.obj [("id", .str "a"), ("make", .str "Ford"), ("model", .str "Mustang"),
                     ("year", .num 1969), ("status", .str "Available")]))
        [("id", .str "a"), ("make", .str "Ford"), ("model", .str "Mustang"),
         ("status", .str "Sold")])
      ∈ [JsVal.obj [("id", .str "a"), ("make", .str "Ford"), ("model", .str "Mustang"),
                    ("year", .num 1969), ("status", .str "Sold")]] ∧
    (∀ k v, getF [("id", .str "a"), ("make", .str "Ford"), ("model", .str "Mustang"),
                  ("status", .str "Sold")] k = some v →
      getF (spreadMergeJs
        (some (.obj [("id", .str "a"), ("make", .str "Ford"), ("model", .str "Mustang"),
                     ("year", .num 1969), ("status", .str "Available")]))
        [("id", .str "a"), ("make", .str "Ford"), ("model", .str "Mustang"),
         ("status", .str "Sold")]) k = some v) ∧
    (∀ k, getF [("id", .str "a"), ("make", .str "Ford"), ("model", .str "Mustang"),
                ("status", .str "Sold")] k = none →
      getF (spreadMergeJs
        (some (.obj [("id", .str "a"), ("make", .str "Ford"), ("model", .str "Mustang"),
                     ("year", .num 1969), ("status", .str "Available")]))
        [("id", .str "a"), ("make", .str "Ford"), ("model", .str "Mustang"),
         ("status", .str "Sold")]) k
        = getF [("id", .str "a"), ("make", .str "Ford"), ("model", .str "Mustang"),
                ("year", .num 1969), ("status", .str "Available")] k) :=
  handlePost_field_merge true (some "Bearer token")
    (.ok [("scope", JsVal.str "inventory:write")])
    (.arr [.obj [("id", .str "A"), ("make", .str "Ford"), ("model", .str "Mustang"),
                 ("status", .str "Sold")]])
    [.obj [("id", .str "a"), ("make", .str "Ford"), ("model", .str "Mustang"),
           ("year", .num 1969), ("status", .str "Available")]]
    [.obj [("id", .str "A"), ("make", .str "Ford"), ("model", .str "Mustang"),
           ("status", .str "Sold")]]
    [] []
    [("id", .str "a"), ("make", .str "Ford"), ("model", .str "Mustang"),
     ("status", .str "Sold")]
    [("id", .str "a"), ("make", .str "Ford"), ("model", .str "Mustang"),
     ("year", .num 1969), ("status", .str "Available")]
    (.str "a")
    (resp 200 (.arr [.obj [("id", .str "a"), ("make", .str "Ford"),
                           ("model", .str "Mustang"), ("year", .num 1969),
                           ("status", .str "Sold")]]))
    [.obj [("id", .str "a"), ("make", .str "Ford"), ("model", .str "Mustang"),
           ("year", .num 1969), ("status", .str "Sold")]]
    true
    (by
      intro raws' h
      cases h
      decide)
    (by decide) rfl rfl (by decide) rfl rfl (by decide) (by decide) rfl

end Aftertone
